import Mathlib

/-!
Shallow embedding of the SDF generation core of the Charge repository
(src/graphics/sdf.rs): the gradient estimator `computegradient`, the edge
distance estimator `edgedf`, the candidate distance evaluator `distaa3`,
the sweep transform `edtaa3`, the bipolar field synthesizer
`make_distance_mapd` and the byte adapter `make_distance_mapb`.

Modelling conventions:
- `f64` values are modelled as exact rationals `ℚ`.  The hardware square
  root is modelled by `ratSqrt`, a fixed-precision (10⁻⁶) monotone
  under-approximation of the real square root computed with an integer
  Newton iteration; it is exact on perfect squares.
- Buffers are `List ℚ` / `List ℤ`; reads are `List.getD` (total), writes
  are `List.set`.  Index arithmetic (`(i as isize + offset) as usize`)
  is modelled over `ℤ` followed by `Int.toNat`.
- The `i16` offset buffers `distx`/`disty` are modelled as unbounded `ℤ`
  (no wrap-around), and `usize`/`i32` index arithmetic is likewise
  idealized.  This is exact as long as no stored offset component leaves
  the `i16` range, i.e. as long as both image dimensions stay below
  32768; the source's two's-complement wrap beyond that point is
  modelled separately by `wrap16` and is shown to drive the computed
  candidate index out of bounds.
- `loop { ... }` in `edtaa3` is modelled with explicit fuel
  (`edtaaLoop`); the fuel used by `edtaa3` is derived from a termination
  measure that is proved sufficient.
-/

/-! ## Fixed-precision rational square root (model of `f64::sqrt`) -/

/-- One-sided integer Newton iteration for the floor square root, with
explicit fuel.  `g` is the current guess. -/
def natSqrtAux (n : ℕ) : ℕ → ℕ → ℕ
  | 0, g => g
  | fuel+1, g =>
    let next := (g + n / g) / 2
    if next < g then natSqrtAux n fuel next else g

/-- Floor square root of a natural number, by Newton iteration. -/
def natSqrt (n : ℕ) : ℕ :=
  if n ≤ 1 then n else natSqrtAux n n (n / 2)

/-- Scale used by the rational square root: results are multiples of
`1 / ratSqrtPrec`. -/
def ratSqrtPrec : ℕ := 1000000

/-- Model of `f64::sqrt` on `ℚ`: the floor square root of `q` at
precision `1/ratSqrtPrec`.  Nonpositive inputs give `0`. -/
def ratSqrt (q : ℚ) : ℚ :=
  (natSqrt (Int.toNat ⌊q * (ratSqrtPrec * ratSqrtPrec : ℕ)⌋) : ℚ) / (ratSqrtPrec : ℚ)

/-! ## `computegradient` (src/graphics/sdf.rs lines 19-50) -/

/-- The constant `SQRT2 = 1.4142136` from `computegradient`. -/
def SQRT2 : ℚ := 14142136 / 10000000

/-- Body of the gradient loop for one pixel `k = i*w + j`: if the pixel is
an edge pixel (`0 < img[k] < 1`) store the normalized Sobel-style gradient
into `gx`/`gy`, otherwise leave the buffers alone. -/
def gradientAt (img : List ℚ) (w : ℕ) (k : ℕ) (g : List ℚ × List ℚ) :
    List ℚ × List ℚ :=
  let a := img.getD k 0
  if 0 < a ∧ a < 1 then
    let gxk := -(img.getD (k - w - 1) 0) - SQRT2 * img.getD (k - 1) 0
      - img.getD (k + w - 1) 0 + img.getD (k - w + 1) 0
      + SQRT2 * img.getD (k + 1) 0 + img.getD (k + w + 1) 0
    let gyk := -(img.getD (k - w - 1) 0) - SQRT2 * img.getD (k - w) 0
      - img.getD (k - w + 1) 0 + img.getD (k + w - 1) 0
      + SQRT2 * img.getD (k + w) 0 + img.getD (k + w + 1) 0
    let glength := gxk * gxk + gyk * gyk
    if glength > 0 then
      let r := ratSqrt glength
      (g.1.set k (gxk / r), g.2.set k (gyk / r))
    else
      (g.1.set k gxk, g.2.set k gyk)
  else g

/-- Model of `computegradient`: for every interior pixel (`1 ≤ i < h-1`,
`1 ≤ j < w-1`) run `gradientAt`.  The `gx`/`gy` buffers are passed in
pre-zeroed by the caller, as in the source. -/
def computegradient (img : List ℚ) (w h : ℕ) (gx gy : List ℚ) :
    List ℚ × List ℚ :=
  (List.range' 1 (h - 2)).foldl
    (fun g i =>
      (List.range' 1 (w - 2)).foldl (fun g j => gradientAt img w (i * w + j) g) g)
    (gx, gy)

/-! ## `edgedf` (src/graphics/sdf.rs lines 62-97) -/

/-- Model of `edgedf`: distance from a pixel center to the edge given a
gradient (or direction) `(gx, gy)` and a coverage value `a`. -/
def edgedf (gx gy a : ℚ) : ℚ :=
  if gx = 0 ∨ gy = 0 then
    1/2 - a
  else
    let glength := ratSqrt (gx * gx + gy * gy)
    let gx₁ := if glength > 0 then gx / glength else gx
    let gy₁ := if glength > 0 then gy / glength else gy
    let gx₂ := |gx₁|
    let gy₂ := |gy₁|
    let gx₃ := if gx₂ < gy₂ then gy₂ else gx₂
    let gy₃ := if gx₂ < gy₂ then gx₂ else gy₂
    let a1 := 1/2 * gy₃ / gx₃
    if a < a1 then
      1/2 * (gx₃ + gy₃) - ratSqrt (2 * gx₃ * gy₃ * a)
    else if a < 1 - a1 then
      (1/2 - a) * gx₃
    else
      -(1/2) * (gx₃ + gy₃) + ratSqrt (2 * gx₃ * gy₃ * (1 - a))

/-! ## `distaa3` (src/graphics/sdf.rs lines 99-140) -/

/-- Model of `distaa3`: proposed distance for a pixel adopting candidate
`c`, whose stored offset is `(xc, yc)`, with proposed offset `(xi, yi)`. -/
def distaa3 (img gximg gyimg : List ℚ) (w c xc yc xi yi : ℤ) : ℚ :=
  let closest := (c - xc - yc * w).toNat
  let a₀ := img.getD closest 0
  let gx := gximg.getD closest 0
  let gy := gyimg.getD closest 0
  let a₁ := if a₀ > 1 then 1 else a₀
  let a := if a₁ < 0 then 0 else a₁
  if a = 0 then 1000000
  else
    let dx := (xi : ℚ)
    let dy := (yi : ℚ)
    let di := ratSqrt (dx * dx + dy * dy)
    let df := if di = 0 then edgedf gx gy a else edgedf dx dy a
    di + df

/-! ## `edtaa3` (src/graphics/sdf.rs lines 147-764) -/

/-- The `epsilon = 1e-3` improvement threshold of `edtaa3`. -/
def epsilon : ℚ := 1/1000

/-- State of the sweep transform: the three per-pixel buffers and the
`changed` flag of the current outer iteration.  The source stores
`distx`/`disty` as `i16`; they are modelled as unbounded `ℤ` here, which
is exact until a stored component would leave `[-32768, 32767]` — see
`wrap16` for the faithful overflow behavior, which a 2×40000 image
reaches. -/
structure EdtState where
  distx : List ℤ
  disty : List ℤ
  dist : List ℚ
  changed : Bool
  deriving DecidableEq

/-- One candidate check of the sweep (the repeated block of `edtaa3`):
candidate index `c = i + off`, proposed offset = candidate's stored offset
plus `(dx, dy)`.  Returns the updated state together with the updated
`olddist` comparison value.  (In the source the final check of a block
omits the dead `olddist = newdist` assignment; returning it uniformly is
observationally identical.)  `newdistx`/`newdisty` are computed over
unbounded `ℤ` where the source's `i16` addition panics on overflow in
debug builds and wraps in release builds (see `wrap16`); the two agree
while offsets stay inside the `i16` range. -/
def candCheck (img gx gy : List ℚ) (w : ℤ) (i : ℕ) (off dx dy : ℤ)
    (s : EdtState) (olddist : ℚ) : EdtState × ℚ :=
  let c := ((i : ℤ) + off).toNat
  let cdistx := s.distx.getD c 0
  let cdisty := s.disty.getD c 0
  let newdistx := cdistx + dx
  let newdisty := cdisty + dy
  let newdist := distaa3 img gx gy w (c : ℤ) cdistx cdisty newdistx newdisty
  if newdist < olddist - epsilon then
    (⟨s.distx.set i newdistx, s.disty.set i newdisty, s.dist.set i newdist,
      true⟩, newdist)
  else (s, olddist)

/-- One pixel of a sweep sub-pass: read `olddist = dist[i]`; if it is
positive, run the block's candidate checks in order (threading `olddist`
exactly as the source does). -/
def pixelChecks (img gx gy : List ℚ) (w : ℤ) (i : ℕ)
    (cs : List (ℤ × ℤ × ℤ)) (s : EdtState) : EdtState :=
  let olddist := s.dist.getD i 0
  if olddist > 0 then
    (cs.foldl (fun p t => candCheck img gx gy w i t.1 t.2.1 t.2.2 p.1 p.2)
      (s, olddist)).1
  else s

/-- The leftmost-pixel block of the forward row scan (`edtaa3` lines
200-251): candidates are the north (`offset_u = -w`) and north-east
(`offset_ur = -w+1`) neighbors. -/
def forwardRowStart (img gx gy : List ℚ) (w : ℕ) (i : ℕ) (s : EdtState) :
    EdtState :=
  pixelChecks img gx gy w i [(-(w : ℤ), 0, 1), (-(w : ℤ) + 1, -1, 1)] s

/-- One row of the forward sweep (`edtaa3` lines 194-474): the special
leftmost pixel, the middle pixels (candidates west, north-west, north,
north-east), the special rightmost pixel, then the right-to-left scan
propagating from the east neighbor. -/
def forwardRow (img gx gy : List ℚ) (w : ℕ) (y : ℕ) (s : EdtState) :
    EdtState :=
  let s₁ := forwardRowStart img gx gy w (y * w) s
  let s₂ := (List.range' 1 (w - 2)).foldl
    (fun s x => pixelChecks img gx gy w (y * w + x)
      [(-1, 1, 0), (-(w : ℤ) - 1, 1, 1), (-(w : ℤ), 0, 1), (-(w : ℤ) + 1, -1, 1)] s)
    s₁
  let s₃ := pixelChecks img gx gy w (y * w + w - 1)
    [(-1, 1, 0), (-(w : ℤ) - 1, 1, 1), (-(w : ℤ), 0, 1)] s₂
  ((List.range' 0 (w - 1)).reverse).foldl
    (fun s x => pixelChecks img gx gy w (y * w + x) [(1, -1, 0)] s) s₃

/-- One row of the backward sweep (`edtaa3` lines 478-756): the special
rightmost pixel (candidates south, south-west), the middle pixels
(east, south-east, south, south-west), the special leftmost pixel, then
the left-to-right scan propagating from the west neighbor. -/
def backwardRow (img gx gy : List ℚ) (w : ℕ) (y : ℕ) (s : EdtState) :
    EdtState :=
  let s₁ := pixelChecks img gx gy w (y * w + w - 1)
    [((w : ℤ), 0, -1), ((w : ℤ) - 1, 1, -1)] s
  let s₂ := ((List.range' 1 (w - 2)).reverse).foldl
    (fun s x => pixelChecks img gx gy w (y * w + x)
      [(1, -1, 0), ((w : ℤ) + 1, -1, -1), ((w : ℤ), 0, -1), ((w : ℤ) - 1, 1, -1)] s)
    s₁
  let s₃ := pixelChecks img gx gy w (y * w)
    [(1, -1, 0), ((w : ℤ) + 1, -1, -1), ((w : ℤ), 0, -1)] s₂
  (List.range' 1 (w - 1)).foldl
    (fun s x => pixelChecks img gx gy w (y * w + x) [(-1, 1, 0)] s) s₃

/-- One full 4-directional sweep iteration of `edtaa3`'s outer `loop`:
reset `changed`, scan rows 1..h-1 forward, then rows h-2..0 backward. -/
def sweepPass (img gx gy : List ℚ) (w h : ℕ) (s : EdtState) : EdtState :=
  let s₀ : EdtState := ⟨s.distx, s.disty, s.dist, false⟩
  let s₁ := (List.range' 1 (h - 1)).foldl
    (fun s y => forwardRow img gx gy w y s) s₀
  ((List.range' 0 (h - 1)).reverse).foldl
    (fun s y => backwardRow img gx gy w y s) s₁

/-- Initialization of the sweep (`edtaa3` lines 174-186): offsets zero;
`dist` is the sentinel for background pixels, the `edgedf` estimate for
edge pixels, `0` inside the object. -/
def edtaaInit (img gx gy : List ℚ) (wh : ℕ) : EdtState :=
  ⟨List.replicate wh 0, List.replicate wh 0,
    (List.range wh).map (fun i =>
      if img.getD i 0 ≤ 0 then 1000000
      else if img.getD i 0 < 1 then
        edgedf (gx.getD i 0) (gy.getD i 0) (img.getD i 0)
      else 0),
    false⟩

/-- The outer `loop` of `edtaa3` with explicit fuel: run `sweepPass`
until a pass reports no change (or the fuel runs out). -/
def edtaaLoop (img gx gy : List ℚ) (w h : ℕ) : ℕ → EdtState → EdtState
  | 0, s => s
  | n+1, s =>
    let s₁ := sweepPass img gx gy w h s
    if s₁.changed then edtaaLoop img gx gy w h n s₁ else s₁

/-- Termination measure: each entry of `dist` can only decrease, in steps
of more than `epsilon`, and is bounded below by `-3`; summing the number
of possible remaining steps bounds the number of changing passes. -/
def edtaaMeasure (s : EdtState) : ℕ :=
  (s.dist.map (fun d => (⌈(d + 4) * 1000⌉).toNat)).sum

/-- Model of `edtaa3`: initialize, then sweep until no pass changes
anything.  The fuel `edtaaMeasure + 1` is proved sufficient. -/
def edtaa3 (img gx gy : List ℚ) (w h : ℕ) : EdtState :=
  let s₀ := edtaaInit img gx gy (w * h)
  edtaaLoop img gx gy w h (edtaaMeasure s₀ + 1) s₀

/-! ## `make_distance_mapd` (src/graphics/sdf.rs lines 769-842) -/

/-- The unsigned transform as `make_distance_mapd` runs it: gradient
estimation (into pre-zeroed buffers) followed by the sweep transform,
returning the resulting `dist` buffer. -/
def unsignedTransform (data : List ℚ) (w h : ℕ) : List ℚ :=
  let g := computegradient data w h (List.replicate (w * h) 0)
    (List.replicate (w * h) 0)
  (edtaa3 data g.1 g.2 w h).dist

/-- The defensive clamp of `make_distance_mapd` (lines 790-794 and
817-821): negative transform outputs are raised to `0`. -/
def clampNeg (l : List ℚ) : List ℚ :=
  l.map (fun v => if v < 0 then 0 else v)

/-- Contents of the caller's `data` buffer while the second (inside)
transform pass runs: `make_distance_mapd` lines 803-805 overwrite each
sample with `1 - v` in place. -/
def dataDuringSecondPass (data : List ℚ) : List ℚ :=
  data.map (fun v => 1 - v)

/-- The `outside` field of `make_distance_mapd` after its clamp. -/
def outsideField (data : List ℚ) (w h : ℕ) : List ℚ :=
  clampNeg (unsignedTransform data w h)

/-- The `inside` field of `make_distance_mapd` after its clamp: the
transform of the in-place inverted buffer. -/
def insideField (data : List ℚ) (w h : ℕ) : List ℚ :=
  clampNeg (unsignedTransform (dataDuringSecondPass data) w h)

/-- The bipolar field `outside - inside` (lines 824-829). -/
def bipolarField (data : List ℚ) (w h : ℕ) : List ℚ :=
  (List.range (w * h)).map (fun i =>
    (outsideField data w h).getD i 0 - (insideField data w h).getD i 0)

/-- Model of `f64::MAX` (the value `(2 - 2⁻⁵²)·2¹⁰²³`, written over `ℕ`
so that it evaluates quickly). -/
def f64MAX : ℚ := ((2^1024 - 2^971 : ℕ) : ℚ)

/-- The clamp radius `vmin` of `make_distance_mapd` (lines 776, 824-831):
the running minimum of the bipolar field, seeded with `f64::MAX`, then
passed through `abs`. -/
def vminOf (data : List ℚ) (w h : ℕ) : ℚ :=
  |(bipolarField data w h).foldl (fun m v => if v < m then v else m) f64MAX|

/-- Model of `make_distance_mapd` (the final contents of the `data`
buffer): clamp the bipolar field to `[-vmin, vmin]` and remap by
`(v + vmin) / (2 vmin)`. -/
def make_distance_mapd (data : List ℚ) (w h : ℕ) : List ℚ :=
  let vmin := vminOf data w h
  (bipolarField data w h).map (fun v =>
    let v₁ := if v < -vmin then -vmin else if v > vmin then vmin else v
    (v₁ + vmin) / (2 * vmin))

/-! ## `make_distance_mapb` (src/graphics/sdf.rs lines 845-877) -/

/-- Model of `f64::MIN`. -/
def f64MIN : ℚ := -f64MAX

/-- The min/max scan of `make_distance_mapb` (lines 849-862): fold over
the first `w*h` bytes, seeding `img_max` with `f64::MIN` and `img_min`
with `f64::MAX`.  Returns `(img_min, img_max)`. -/
def mdmbScan (img : List ℕ) (wh : ℕ) : ℚ × ℚ :=
  (List.range wh).foldl
    (fun p i =>
      let v : ℚ := (img.getD i 0 : ℕ)
      (if v < p.1 then v else p.1, if v > p.2 then v else p.2))
    (f64MAX, f64MIN)

/-- The byte-to-float normalization of `make_distance_mapb` (lines
864-867): `data[i] = (img[i] - img_min) / img_max`. -/
def mdmbNormalize (img : List ℕ) (wh : ℕ) : List ℚ :=
  (List.range wh).map (fun i =>
    ((img.getD i 0 : ℕ) - (mdmbScan img wh).1) / (mdmbScan img wh).2)

/-- Model of Rust's saturating `f64 as u64` cast: truncation toward zero,
clamped to `[0, 2^64 - 1]`. -/
def u64OfRat (q : ℚ) : ℕ :=
  min (Int.toNat ⌊q⌋) (2 ^ 64 - 1)

/-- Model of Rust's `u64 as u8` cast: reduction modulo 256. -/
def u8OfU64 (n : ℕ) : ℕ := n % 256

/-- The float-to-byte conversion of `make_distance_mapb` (lines 871-874):
`out[i] = ((255.0 * (1.0 - data[i])) as u64) as u8`. -/
def floatToByte (f : ℚ) : ℕ :=
  u8OfU64 (u64OfRat (255 * (1 - f)))

/-- Model of `make_distance_mapb`: normalize the bytes, synthesize the
field, convert back to bytes. -/
def make_distance_mapb (img : List ℕ) (w h : ℕ) : List ℕ :=
  let d := make_distance_mapd (mdmbNormalize img (w * h)) w h
  (List.range (w * h)).map (fun i => floatToByte (d.getD i 0))

/-! ## List access helper lemmas -/

lemma getD_of_length_le {α : Type} {l : List α} {i : ℕ} (d : α)
    (h : l.length ≤ i) : l.getD i d = d := by
  rw [List.getD_eq_getElem?_getD, List.getElem?_eq_none h]
  rfl

lemma getD_set_self {α : Type} {l : List α} {i : ℕ} {a : α} (d : α)
    (h : i < l.length) : (l.set i a).getD i d = a := by
  rw [List.getD_eq_getElem?_getD, List.getElem?_set_self',
    List.getElem?_eq_getElem h]
  rfl

lemma getD_set_ne {α : Type} {l : List α} {i j : ℕ} {a : α} (d : α)
    (h : i ≠ j) : (l.set i a).getD j d = l.getD j d := by
  rw [List.getD_eq_getElem?_getD, List.getElem?_set_ne h,
    ← List.getD_eq_getElem?_getD]

lemma getD_map_zero (f : ℚ → ℚ) (h0 : f 0 = 0) (l : List ℚ) (i : ℕ) :
    (l.map f).getD i 0 = f (l.getD i 0) := by
  rcases lt_or_le i l.length with h | h
  · rw [List.getD_eq_getElem?_getD, List.getElem?_map,
      List.getElem?_eq_getElem h, List.getD_eq_getElem?_getD,
      List.getElem?_eq_getElem h]
    rfl
  · rw [getD_of_length_le _ (by simpa using h), getD_of_length_le _ h, h0]

lemma getD_range_map (f : ℕ → ℚ) (n i : ℕ) :
    ((List.range n).map f).getD i 0 = if i < n then f i else 0 := by
  rcases lt_or_le i n with h | h
  · rw [List.getD_eq_getElem?_getD, List.getElem?_map, List.getElem?_range h,
      if_pos h]
    rfl
  · rw [getD_of_length_le _ (by simpa using h), if_neg (not_lt.mpr h)]

/-! ## C4: negativity of the raw unsigned transform and the clamp -/

set_option maxRecDepth 100000 in
set_option maxHeartbeats 1000000 in
/-- C4 (counterexample): on the uniform antialiased 2×2 bitmap with
coverage 0.9 (all samples in [0,1]), the unsigned transform produced by
the gradient estimator and `edtaa3` is negative at pixel 0 (the border
pixels have zero gradient, so initialization stores
`edgedf 0 0 0.9 = 0.5 - 0.9 = -0.4` and the sweep never revisits
nonpositive pixels), and the defensive clamp does change it to 0 —
refuting the claim that every transform pixel is non-negative and the
clamp never changes any value. -/
theorem C4_counterexample :
    (unsignedTransform (List.replicate 4 (9/10)) 2 2).getD 0 0 = -(2/5) ∧
    (outsideField (List.replicate 4 (9/10)) 2 2).getD 0 0 = 0 :=
  ⟨of_decide_eq_true (by with_unfolding_all rfl),
   of_decide_eq_true (by with_unfolding_all rfl)⟩

/-- C4 (amended): the clamped `outside` field of `make_distance_mapd` is
everywhere non-negative, and the clamp changes a pixel exactly when the
raw unsigned transform is negative there (which does happen, see the
counterexample). -/
theorem C4_clamped_nonneg (data : List ℚ) (w h i : ℕ) :
    0 ≤ (outsideField data w h).getD i 0 ∧
    ((outsideField data w h).getD i 0 ≠ (unsignedTransform data w h).getD i 0 ↔
      (unsignedTransform data w h).getD i 0 < 0) := by
  unfold outsideField clampNeg
  rw [getD_map_zero _ (by norm_num)]
  set r := (unsignedTransform data w h).getD i 0 with hr
  by_cases hneg : r < 0
  · rw [if_pos hneg]
    exact ⟨le_refl 0, by constructor <;> intro <;> [exact hneg; exact (ne_of_lt hneg).symm]⟩
  · rw [if_neg hneg]
    push_neg at hneg
    exact ⟨hneg, by constructor <;> intro h' <;> [exact absurd rfl h'; exact absurd h' (not_lt.mpr hneg)]⟩

/-! ## C5: the float-to-byte conversion truncates, it does not round -/

/-- C5 (counterexample): for the in-range field sample `f = 1/2550`,
`255·(1-f) = 254.9`; the conversion of `make_distance_mapb` produces the
byte 254 (truncation), while rounding to the nearest integer gives 255 —
refuting `byte = round(255·(1-f))`. -/
theorem C5_counterexample :
    floatToByte (1/2550) = 254 ∧ round ((255:ℚ) * (1 - 1/2550)) = 255 :=
  ⟨of_decide_eq_true (by with_unfolding_all rfl),
   of_decide_eq_true (by with_unfolding_all rfl)⟩

/-- C5 (amended): for every normalized field sample `f ∈ [0,1]`, the
output byte of `make_distance_mapb`'s conversion equals
`⌊255·(1-f)⌋` — truncation toward zero, not rounding to nearest. -/
theorem C5_byte_is_floor (f : ℚ) (h0 : 0 ≤ f) (h1 : f ≤ 1) :
    (floatToByte f : ℤ) = ⌊255 * (1 - f)⌋ := by
  have hq0 : (0:ℚ) ≤ 255 * (1 - f) := by nlinarith
  have hfl0 : 0 ≤ ⌊(255:ℚ) * (1 - f)⌋ := Int.le_floor.mpr (by exact_mod_cast hq0)
  have hfl255 : ⌊(255:ℚ) * (1 - f)⌋ ≤ 255 := by
    have : (255:ℚ) * (1 - f) ≤ 255 := by nlinarith
    calc ⌊(255:ℚ) * (1 - f)⌋ ≤ ⌊(255:ℚ)⌋ := Int.floor_le_floor this
    _ = 255 := by norm_num
  have htn : (Int.toNat ⌊(255:ℚ) * (1 - f)⌋ : ℤ) = ⌊(255:ℚ) * (1 - f)⌋ :=
    Int.toNat_of_nonneg hfl0
  have htle : Int.toNat ⌊(255:ℚ) * (1 - f)⌋ ≤ 255 := by omega
  unfold floatToByte u64OfRat u8OfU64
  rw [min_eq_left (le_trans htle (by norm_num))]
  rw [Nat.mod_eq_of_lt (lt_of_le_of_lt htle (by norm_num))]
  exact htn

/-- C5 (witness): the amended conversion theorem instantiated at
`f = 1/2`. -/
theorem C5_witness : (floatToByte (1/2) : ℤ) = ⌊(255:ℚ) * (1 - 1/2)⌋ :=
  C5_byte_is_floor (1/2) (by norm_num) (by norm_num)

/-! ## C6: distances at a hard vertical edge -/

/-- A 6×2 bitmap whose left half is 0 and right half is 1: a single hard
vertical edge with no antialiased pixels. -/
def vertEdgeImg : List ℚ := [0, 0, 0, 1, 1, 1, 0, 0, 0, 1, 1, 1]

set_option maxRecDepth 100000 in
set_option maxHeartbeats 4000000 in
/-- C6 (counterexample): on the hard vertical edge, the background pixel
one column from the edge (index 2) receives distance `1/2`, not `1`: the
transform measures the distance to the coverage boundary half a pixel
beyond the last background pixel center, so the claimed value `k` is off
by `1/2`, far beyond floating-point tolerance. -/
theorem C6_counterexample :
    (unsignedTransform vertEdgeImg 6 2).getD 2 0 = 1/2 ∧
    (1:ℚ)/10 < |(1:ℚ)/2 - 1| :=
  ⟨of_decide_eq_true (by with_unfolding_all rfl), by
    rw [show ((1:ℚ)/2 - 1) = -(1/2) by norm_num, abs_neg, abs_of_pos (by norm_num : (0:ℚ) < 1/2)]
    norm_num⟩

set_option maxRecDepth 100000 in
set_option maxHeartbeats 4000000 in
/-- C6 (amended): on the hard vertical edge, each background pixel `k`
columns from the edge receives distance `k - 1/2` (and object pixels 0):
the full transform output is `[5/2, 3/2, 1/2, 0, 0, 0, 5/2, 3/2, 1/2, 0,
0, 0]`. -/
theorem C6_vertical_edge_distances :
    unsignedTransform vertEdgeImg 6 2 =
      [5/2, 3/2, 1/2, 0, 0, 0, 5/2, 3/2, 1/2, 0, 0, 0] :=
  of_decide_eq_true (by with_unfolding_all rfl)

/-! ## C7: candidate set of the leftmost pixel in the forward scan -/

/-- Modelled from the spec: the spec's forward-scan description says the
row-start (leftmost) pixel propagates "from north only"; this variant of
the row-start block consults only the north neighbor `offset_u = -w`. -/
def forwardRowStartNorthOnly (img gx gy : List ℚ) (w : ℕ) (i : ℕ)
    (s : EdtState) : EdtState :=
  pixelChecks img gx gy w i [(-(w : ℤ), 0, 1)] s

/-- The 2×2 bitmap used to separate the two row-start candidate sets: the
north neighbor of pixel 2 is background but its north-east neighbor is an
object pixel. -/
def c7Img : List ℚ := [0, 1, 0, 0]

/-- The initial sweep state for `c7Img` (zero gradients). -/
def c7Init : EdtState :=
  edtaaInit c7Img (List.replicate 4 0) (List.replicate 4 0) 4

set_option maxRecDepth 100000 in
/-- C7 (counterexample): on `c7Img`, the row-start block of the forward
scan updates pixel 2 from its north-east neighbor (an object pixel),
whereas a north-only block would leave pixel 2 at the sentinel — the
leftmost pixel does consult a neighbor other than north. -/
theorem C7_counterexample :
    (forwardRowStart c7Img (List.replicate 4 0) (List.replicate 4 0) 2 2
        c7Init).dist.getD 2 0 ≠
    (forwardRowStartNorthOnly c7Img (List.replicate 4 0) (List.replicate 4 0)
        2 2 c7Init).dist.getD 2 0 :=
  of_decide_eq_true (by with_unfolding_all rfl)

/-- C7 (amended): in the forward row scan, the leftmost pixel of each row
is processed, when its stored distance is positive, by exactly two
candidate checks: first the north neighbor (`offset_u = -w`, offset delta
`(0, 1)`), then the north-east neighbor (`offset_ur = -w+1`, offset delta
`(-1, 1)`); no other neighbor is consulted. -/
theorem C7_row_start_candidates (img gx gy : List ℚ) (w i : ℕ) (s : EdtState) :
    forwardRowStart img gx gy w i s =
      (if s.dist.getD i 0 > 0 then
        (candCheck img gx gy w i (-(w : ℤ) + 1) (-1) 1
          (candCheck img gx gy w i (-(w : ℤ)) 0 1 s (s.dist.getD i 0)).1
          (candCheck img gx gy w i (-(w : ℤ)) 0 1 s (s.dist.getD i 0)).2).1
      else s) := by
  unfold forwardRowStart pixelChecks
  rfl

/-! ## C8: the coverage buffer is inverted in place -/

/-- C8 (counterexample): the buffer contents during the second transform
pass differ from the original coverage values — on the all-zero 2×2
coverage patch the buffer holds all ones while the inside pass runs, so
the caller's buffer does not keep the original values. -/
theorem C8_counterexample :
    dataDuringSecondPass (List.replicate 4 0) ≠ List.replicate 4 (0:ℚ) :=
  of_decide_eq_true (by with_unfolding_all rfl)

/-- C8 (amended): `make_distance_mapd` inverts the caller's buffer in
place: the second (inside) transform pass consumes the buffer whose every
in-range sample is `1 - v` where `v` is the original coverage value; no
working copy holding the original values exists during that pass. -/
theorem C8_inversion_in_place (data : List ℚ) (w h : ℕ) :
    insideField data w h =
      clampNeg (unsignedTransform (dataDuringSecondPass data) w h) ∧
    (dataDuringSecondPass data).length = data.length ∧
    ∀ i, i < data.length →
      (dataDuringSecondPass data).getD i 0 = 1 - data.getD i 0 := by
  refine ⟨rfl, List.length_map _ _, fun i hi => ?_⟩
  unfold dataDuringSecondPass
  rw [List.getD_eq_getElem?_getD, List.getElem?_map,
    List.getElem?_eq_getElem hi, List.getD_eq_getElem?_getD,
    List.getElem?_eq_getElem hi]
  rfl

/-- C8 (witness): the in-place inversion theorem instantiated on a
concrete buffer. -/
theorem C8_witness :
    (dataDuringSecondPass [(1:ℚ)/4, 1]).getD 0 0 = 1 - [(1:ℚ)/4, 1].getD 0 0 :=
  (C8_inversion_in_place [(1:ℚ)/4, 1] 1 2).2.2 0 (by norm_num)

/-! ## C1: division by zero in `make_distance_mapb` on a uniform patch -/

set_option maxRecDepth 100000 in
/-- C1 (failing input): on the fully uniform all-zero 2×2 byte patch, the
min/max scan of `make_distance_mapb` computes `img_max = 0` (and
`img_min = 0`), so its byte-to-float normalization
`(img[i] - img_min) / img_max` divides by zero instead of rejecting the
input — the source performs `(0 - 0) / 0`, which is NaN in `f64`. -/
theorem C1_uniform_zero_divides_by_zero :
    (mdmbScan (List.replicate 4 0) 4).2 = 0 ∧
    (mdmbScan (List.replicate 4 0) 4).1 = 0 :=
  ⟨of_decide_eq_true (by with_unfolding_all rfl),
   of_decide_eq_true (by with_unfolding_all rfl)⟩

/-! ## C9: the byte-to-float normalization of `make_distance_mapb` -/

lemma f64MAX_big : (255 : ℚ) < f64MAX := by
  unfold f64MAX
  have h1 : (2:ℕ)^971 ≤ 2^1023 := Nat.pow_le_pow_right (by norm_num) (by norm_num)
  have h2 : (512:ℕ) ≤ 2^1023 := by
    calc (512:ℕ) = 2^9 := by norm_num
    _ ≤ 2^1023 := Nat.pow_le_pow_right (by norm_num) (by norm_num)
  have h3 : (2:ℕ)^1024 = 2^1023 * 2 := by rw [pow_succ]
  have : (255:ℕ) < 2^1024 - 2^971 := by omega
  exact_mod_cast this

lemma mdmbScan_succ (img : List ℕ) (n : ℕ) :
    mdmbScan img (n + 1) =
      (if ((img.getD n 0 : ℕ) : ℚ) < (mdmbScan img n).1 then ((img.getD n 0 : ℕ) : ℚ)
        else (mdmbScan img n).1,
       if ((img.getD n 0 : ℕ) : ℚ) > (mdmbScan img n).2 then ((img.getD n 0 : ℕ) : ℚ)
        else (mdmbScan img n).2) := by
  unfold mdmbScan
  rw [List.range_succ, List.foldl_append]
  rfl

set_option maxRecDepth 100000 in
lemma mdmbScan_char (img : List ℕ) (n : ℕ)
    (hb : ∀ i, i < n + 1 → img.getD i 0 ≤ 255) :
    ((∃ j, j < n + 1 ∧ (mdmbScan img (n+1)).1 = ((img.getD j 0 : ℕ) : ℚ)) ∧
     (∀ i, i < n + 1 → (mdmbScan img (n+1)).1 ≤ ((img.getD i 0 : ℕ) : ℚ))) ∧
    ((∃ j, j < n + 1 ∧ (mdmbScan img (n+1)).2 = ((img.getD j 0 : ℕ) : ℚ)) ∧
     (∀ i, i < n + 1 → ((img.getD i 0 : ℕ) : ℚ) ≤ (mdmbScan img (n+1)).2)) := by
  induction n with
  | zero =>
    have hv : ((img.getD 0 0 : ℕ) : ℚ) < f64MAX :=
      lt_of_le_of_lt (by exact_mod_cast hb 0 (by norm_num)) f64MAX_big
    have hv2 : f64MIN < ((img.getD 0 0 : ℕ) : ℚ) := by
      unfold f64MIN
      have hpos : (0:ℚ) < f64MAX := lt_trans (by norm_num) f64MAX_big
      have : (0:ℚ) ≤ ((img.getD 0 0 : ℕ) : ℚ) := by positivity
      linarith
    rw [mdmbScan_succ]
    have hscan0 : mdmbScan img 0 = (f64MAX, f64MIN) := rfl
    rw [hscan0]
    simp only [if_pos hv, if_pos hv2]
    refine ⟨⟨⟨0, by norm_num, rfl⟩, ?_⟩, ⟨0, by norm_num, rfl⟩, ?_⟩ <;>
      · intro i hi
        interval_cases i
        exact le_refl _
  | succ m ih =>
    have hb' : ∀ i, i < m + 1 → img.getD i 0 ≤ 255 :=
      fun i hi => hb i (Nat.lt_succ_of_lt hi)
    obtain ⟨⟨⟨j₁, hj₁, hmin⟩, hminle⟩, ⟨j₂, hj₂, hmax⟩, hmaxle⟩ := ih hb'
    rw [mdmbScan_succ]
    set v : ℚ := ((img.getD (m+1) 0 : ℕ) : ℚ) with hv
    constructor
    · constructor
      · by_cases hlt : v < (mdmbScan img (m+1)).1
        · exact ⟨m+1, by omega, by rw [if_pos hlt]⟩
        · exact ⟨j₁, by omega, by rw [if_neg hlt]; exact hmin⟩
      · intro i hi
        by_cases hlt : v < (mdmbScan img (m+1)).1 <;>
          [rw [if_pos hlt]; rw [if_neg hlt]] <;>
          rcases Nat.lt_succ_iff_lt_or_eq.mp hi with hi' | hi'
        · exact le_trans (le_of_lt hlt) (hminle i hi')
        · subst hi'; exact le_refl v
        · exact hminle i hi'
        · subst hi'; exact not_lt.mp hlt
    · constructor
      · by_cases hlt : v > (mdmbScan img (m+1)).2
        · exact ⟨m+1, by omega, by rw [if_pos hlt]⟩
        · exact ⟨j₂, by omega, by rw [if_neg hlt]; exact hmax⟩
      · intro i hi
        by_cases hlt : v > (mdmbScan img (m+1)).2 <;>
          [rw [if_pos hlt]; rw [if_neg hlt]] <;>
          rcases Nat.lt_succ_iff_lt_or_eq.mp hi with hi' | hi'
        · exact le_trans (hmaxle i hi') (le_of_lt hlt)
        · subst hi'; exact le_refl v
        · exact hmaxle i hi'
        · subst hi'; exact not_lt.mp hlt

/-- C9: the byte-to-float conversion of `make_distance_mapb` maps each
byte `v` to `(v - m) / M` where `m` and `M` are the minimum and maximum
of the input bytes (the sentinel-seeded scans attain and bound the
values); consequently, when `m > 0` every converted sample is strictly
below 1, and for every constant input with positive value the whole
converted buffer is `0` — a fully covered patch is handed to the
synthesizer as a fully background patch. -/
theorem C9_normalization (img : List ℕ) (wh : ℕ) (hwh : 0 < wh)
    (hb : ∀ i, i < wh → img.getD i 0 ≤ 255) :
    (∀ i, i < wh → (mdmbNormalize img wh).getD i 0 =
        (((img.getD i 0 : ℕ) : ℚ) - (mdmbScan img wh).1) / (mdmbScan img wh).2) ∧
    (∃ j, j < wh ∧ (mdmbScan img wh).1 = ((img.getD j 0 : ℕ) : ℚ)) ∧
    (∀ i, i < wh → (mdmbScan img wh).1 ≤ ((img.getD i 0 : ℕ) : ℚ)) ∧
    (∃ j, j < wh ∧ (mdmbScan img wh).2 = ((img.getD j 0 : ℕ) : ℚ)) ∧
    (∀ i, i < wh → ((img.getD i 0 : ℕ) : ℚ) ≤ (mdmbScan img wh).2) ∧
    (0 < (mdmbScan img wh).1 →
      ∀ i, i < wh → (mdmbNormalize img wh).getD i 0 < 1) ∧
    (∀ c : ℕ, 0 < c → (∀ i, i < wh → img.getD i 0 = c) →
      mdmbNormalize img wh = List.replicate wh 0) := by
  obtain ⟨n, rfl⟩ : ∃ n, wh = n + 1 := ⟨wh - 1, by omega⟩
  obtain ⟨⟨hminat, hminle⟩, hmaxat, hmaxle⟩ := mdmbScan_char img n hb
  have hform : ∀ i, i < n + 1 → (mdmbNormalize img (n+1)).getD i 0 =
      (((img.getD i 0 : ℕ) : ℚ) - (mdmbScan img (n+1)).1) / (mdmbScan img (n+1)).2 := by
    intro i hi
    unfold mdmbNormalize
    rw [getD_range_map, if_pos hi]
  refine ⟨hform, hminat, hminle, hmaxat, hmaxle, ?_, ?_⟩
  · intro hm i hi
    rw [hform i hi]
    have hvm : (mdmbScan img (n+1)).1 ≤ ((img.getD i 0 : ℕ) : ℚ) := hminle i hi
    have hvM : ((img.getD i 0 : ℕ) : ℚ) ≤ (mdmbScan img (n+1)).2 := hmaxle i hi
    have hMpos : 0 < (mdmbScan img (n+1)).2 := lt_of_lt_of_le hm (le_trans hvm hvM)
    rw [div_lt_one hMpos]
    linarith
  · intro c hc hconst
    obtain ⟨j₁, hj₁, hmin⟩ := hminat
    obtain ⟨j₂, hj₂, hmax⟩ := hmaxat
    have hminc : (mdmbScan img (n+1)).1 = (c : ℚ) := by
      rw [hmin, hconst j₁ hj₁]
    have hmaxc : (mdmbScan img (n+1)).2 = (c : ℚ) := by
      rw [hmax, hconst j₂ hj₂]
    refine List.eq_replicate_iff.mpr ⟨by simp [mdmbNormalize], ?_⟩
    intro b hbmem
    unfold mdmbNormalize at hbmem
    obtain ⟨i, hi, rfl⟩ := List.mem_map.mp hbmem
    have hi' : i < n + 1 := List.mem_range.mp hi
    rw [hconst i hi', hminc, hmaxc, sub_self, zero_div]

/-- C9 (witness): the normalization theorem instantiated on the concrete
2-byte buffer `[7, 3]`. -/
theorem C9_witness :
    (∀ i, i < 2 → (mdmbNormalize [7, 3] 2).getD i 0 =
        ((([7, 3].getD i 0 : ℕ) : ℚ) - (mdmbScan [7, 3] 2).1) / (mdmbScan [7, 3] 2).2) ∧
    (∃ j, j < 2 ∧ (mdmbScan [7, 3] 2).1 = (([7, 3].getD j 0 : ℕ) : ℚ)) ∧
    (∀ i, i < 2 → (mdmbScan [7, 3] 2).1 ≤ (([7, 3].getD i 0 : ℕ) : ℚ)) ∧
    (∃ j, j < 2 ∧ (mdmbScan [7, 3] 2).2 = (([7, 3].getD j 0 : ℕ) : ℚ)) ∧
    (∀ i, i < 2 → (([7, 3].getD i 0 : ℕ) : ℚ) ≤ (mdmbScan [7, 3] 2).2) ∧
    (0 < (mdmbScan [7, 3] 2).1 →
      ∀ i, i < 2 → (mdmbNormalize [7, 3] 2).getD i 0 < 1) ∧
    (∀ c : ℕ, 0 < c → (∀ i, i < 2 → [7, 3].getD i 0 = c) →
      mdmbNormalize [7, 3] 2 = List.replicate 2 0) :=
  C9_normalization [7, 3] 2 (by norm_num) (by decide)

/-! ## Structure of a candidate check -/

/-- Case analysis of `candCheck`: either nothing happens, or — exactly
when the `distaa3` proposal beats the threaded comparison value by more
than `epsilon` — all three buffers are written at `i` in the same check
and the comparison value becomes the new distance. -/
lemma candCheck_cases (img gx gy : List ℚ) (w : ℤ) (i : ℕ) (off dx dy : ℤ)
    (s : EdtState) (old : ℚ) :
    candCheck img gx gy w i off dx dy s old = (s, old) ∨
    (∃ nd, nd = distaa3 img gx gy w ((((i : ℤ) + off).toNat : ℕ) : ℤ)
        (s.distx.getD ((i : ℤ) + off).toNat 0)
        (s.disty.getD ((i : ℤ) + off).toNat 0)
        (s.distx.getD ((i : ℤ) + off).toNat 0 + dx)
        (s.disty.getD ((i : ℤ) + off).toNat 0 + dy) ∧
      nd < old - epsilon ∧
      candCheck img gx gy w i off dx dy s old =
        (⟨s.distx.set i (s.distx.getD ((i : ℤ) + off).toNat 0 + dx),
          s.disty.set i (s.disty.getD ((i : ℤ) + off).toNat 0 + dy),
          s.dist.set i nd, true⟩, nd)) := by
  unfold candCheck
  by_cases h : distaa3 img gx gy w ((((i : ℤ) + off).toNat : ℕ) : ℤ)
      (s.distx.getD ((i : ℤ) + off).toNat 0)
      (s.disty.getD ((i : ℤ) + off).toNat 0)
      (s.distx.getD ((i : ℤ) + off).toNat 0 + dx)
      (s.disty.getD ((i : ℤ) + off).toNat 0 + dy) < old - epsilon
  · exact Or.inr ⟨_, rfl, h, by simp only [if_pos h]⟩
  · exact Or.inl (by simp only [if_neg h])

/-- Generic preservation of a predicate by a left fold. -/
lemma foldl_preserves {α σ : Type} (P : σ → Prop) (f : σ → α → σ)
    (hf : ∀ s a, P s → P (f s a)) :
    ∀ (l : List α) (s : σ), P s → P (l.foldl f s) := by
  intro l
  induction l with
  | nil => intro s hs; exact hs
  | cons a t ih => intro s hs; exact ih (f s a) (hf s a hs)

/-- Generic preservation of a predicate by a left fold, with membership
information about the consumed element. -/
lemma foldl_preserves_mem {α σ : Type} (P : σ → Prop) (f : σ → α → σ)
    (l : List α) (hf : ∀ s a, a ∈ l → P s → P (f s a)) :
    ∀ (s : σ), P s → P (l.foldl f s) := by
  induction l with
  | nil => intro s hs; exact hs
  | cons a t ih =>
    intro s hs
    exact ih (fun s b hb hsb => hf s b (List.mem_cons_of_mem a hb) hsb)
      (f s a) (hf s a (List.mem_cons_self a t) hs)

/-- The invariant threaded through the candidate checks of one pixel
block: the comparison value tracks the pixel's stored distance, buffer
lengths are unchanged, `dist` entries only decrease, and a raised
`changed` flag is justified by an `epsilon`-improvement. -/
def blockInv (s : EdtState) (i : ℕ) (p : EdtState × ℚ) : Prop :=
  p.2 = p.1.dist.getD i 0 ∧
  p.1.dist.length = s.dist.length ∧
  p.1.distx.length = s.distx.length ∧
  p.1.disty.length = s.disty.length ∧
  (∀ j, p.1.dist.getD j 0 ≤ s.dist.getD j 0) ∧
  (p.1.changed = true → s.changed = true ∨
    ∃ j, p.1.dist.getD j 0 < s.dist.getD j 0 - epsilon)

lemma epsilon_pos : 0 < epsilon := by norm_num [epsilon]

lemma candCheck_blockInv (img gx gy : List ℚ) (w : ℤ) (i : ℕ)
    (off dx dy : ℤ) (s : EdtState) (hi : i < s.dist.length)
    (p : EdtState × ℚ) (hp : blockInv s i p) :
    blockInv s i (candCheck img gx gy w i off dx dy p.1 p.2) := by
  obtain ⟨htrack, hlen, hlenx, hleny, hle, hch⟩ := hp
  rcases candCheck_cases img gx gy w i off dx dy p.1 p.2 with h | ⟨nd, _, hlt, h⟩
  · rw [h]
    exact ⟨htrack, hlen, hlenx, hleny, hle, hch⟩
  · rw [h]
    have hi' : i < p.1.dist.length := by rw [hlen]; exact hi
    refine ⟨(getD_set_self 0 hi').symm, by simpa using hlen, by simpa using hlenx,
      by simpa using hleny, ?_, ?_⟩
    · intro j
      by_cases hij : i = j
      · subst hij
        rw [getD_set_self 0 hi']
        have : nd < p.1.dist.getD i 0 - epsilon := by rw [← htrack]; exact hlt
        have := hle i
        have := epsilon_pos
        linarith
      · rw [getD_set_ne 0 hij]
        exact hle j
    · intro _
      refine Or.inr ⟨i, ?_⟩
      rw [getD_set_self 0 hi']
      have : nd < p.1.dist.getD i 0 - epsilon := by rw [← htrack]; exact hlt
      have := hle i
      linarith

/-- Specification of one pixel block: buffer lengths are preserved,
`dist` entries never increase, and a raised `changed` flag is justified
by an `epsilon`-improvement of some entry. -/
lemma pixelChecks_spec (img gx gy : List ℚ) (w : ℤ) (i : ℕ)
    (cs : List (ℤ × ℤ × ℤ)) (s : EdtState) :
    (pixelChecks img gx gy w i cs s).dist.length = s.dist.length ∧
    (pixelChecks img gx gy w i cs s).distx.length = s.distx.length ∧
    (pixelChecks img gx gy w i cs s).disty.length = s.disty.length ∧
    (∀ j, (pixelChecks img gx gy w i cs s).dist.getD j 0 ≤ s.dist.getD j 0) ∧
    ((pixelChecks img gx gy w i cs s).changed = true → s.changed = true ∨
      ∃ j, (pixelChecks img gx gy w i cs s).dist.getD j 0 <
        s.dist.getD j 0 - epsilon) := by
  by_cases hpos : 0 < s.dist.getD i 0
  · have hi : i < s.dist.length := by
      by_contra hge
      rw [getD_of_length_le 0 (le_of_not_lt hge)] at hpos
      exact absurd hpos (lt_irrefl 0)
    have hinv : blockInv s i
        (cs.foldl (fun p t => candCheck img gx gy w i t.1 t.2.1 t.2.2 p.1 p.2)
          (s, s.dist.getD i 0)) :=
      @foldl_preserves (ℤ × ℤ × ℤ) (EdtState × ℚ) (blockInv s i)
        (fun p t => candCheck img gx gy w i t.1 t.2.1 t.2.2 p.1 p.2)
        (fun p t hp => candCheck_blockInv img gx gy w i t.1 t.2.1 t.2.2 s hi p hp)
        cs (s, s.dist.getD i 0)
        ⟨rfl, rfl, rfl, rfl, fun j => le_refl _, fun hc => Or.inl hc⟩
    have heq : pixelChecks img gx gy w i cs s =
        (cs.foldl (fun p t => candCheck img gx gy w i t.1 t.2.1 t.2.2 p.1 p.2)
          (s, s.dist.getD i 0)).1 := by
      show (if 0 < s.dist.getD i 0 then
          (cs.foldl (fun p t => candCheck img gx gy w i t.1 t.2.1 t.2.2 p.1 p.2)
            (s, s.dist.getD i 0)).1
        else s) = _
      rw [if_pos hpos]
    rw [heq]
    exact ⟨hinv.2.1, hinv.2.2.1, hinv.2.2.2.1, hinv.2.2.2.2.1, hinv.2.2.2.2.2⟩
  · have heq : pixelChecks img gx gy w i cs s = s := by
      show (if 0 < s.dist.getD i 0 then
          (cs.foldl (fun p t => candCheck img gx gy w i t.1 t.2.1 t.2.2 p.1 p.2)
            (s, s.dist.getD i 0)).1
        else s) = s
      rw [if_neg hpos]
    rw [heq]
    exact ⟨rfl, rfl, rfl, fun j => le_refl _, fun hc => Or.inl hc⟩

/-- The step relation accumulated by sub-passes of the sweep: lengths
preserved, `dist` pointwise non-increasing, `changed` flag justified. -/
def stepRel (s s' : EdtState) : Prop :=
  s'.dist.length = s.dist.length ∧
  s'.distx.length = s.distx.length ∧
  s'.disty.length = s.disty.length ∧
  (∀ j, s'.dist.getD j 0 ≤ s.dist.getD j 0) ∧
  (s'.changed = true → s.changed = true ∨
    ∃ j, s'.dist.getD j 0 < s.dist.getD j 0 - epsilon)

lemma stepRel_refl (s : EdtState) : stepRel s s :=
  ⟨rfl, rfl, rfl, fun j => le_refl _, fun hc => Or.inl hc⟩

lemma stepRel_trans {s t u : EdtState} (h1 : stepRel s t) (h2 : stepRel t u) :
    stepRel s u := by
  obtain ⟨l1, lx1, ly1, le1, ch1⟩ := h1
  obtain ⟨l2, lx2, ly2, le2, ch2⟩ := h2
  refine ⟨l2.trans l1, lx2.trans lx1, ly2.trans ly1,
    fun j => (le2 j).trans (le1 j), fun hc => ?_⟩
  rcases ch2 hc with hc' | ⟨j, hj⟩
  · rcases ch1 hc' with hc'' | ⟨j, hj⟩
    · exact Or.inl hc''
    · exact Or.inr ⟨j, lt_of_le_of_lt (le2 j) hj⟩
  · exact Or.inr ⟨j, lt_of_lt_of_le hj (by linarith [le1 j])⟩

lemma pixelChecks_stepRel (img gx gy : List ℚ) (w : ℤ) (i : ℕ)
    (cs : List (ℤ × ℤ × ℤ)) (s : EdtState) :
    stepRel s (pixelChecks img gx gy w i cs s) := by
  obtain ⟨h1, h2, h3, h4, h5⟩ := pixelChecks_spec img gx gy w i cs s
  exact ⟨h1, h2, h3, h4, h5⟩

lemma foldl_stepRel {α : Type} (f : EdtState → α → EdtState)
    (hf : ∀ s a, stepRel s (f s a)) (l : List α) (s : EdtState) :
    stepRel s (l.foldl f s) := by
  induction l generalizing s with
  | nil => exact stepRel_refl s
  | cons a t ih => exact stepRel_trans (hf s a) (ih (f s a))

lemma forwardRow_stepRel (img gx gy : List ℚ) (w : ℕ) (y : ℕ) (s : EdtState) :
    stepRel s (forwardRow img gx gy w y s) := by
  unfold forwardRow forwardRowStart
  refine stepRel_trans (stepRel_trans (stepRel_trans
    (pixelChecks_stepRel img gx gy w (y * w) _ s)
    (foldl_stepRel _ (fun s x => pixelChecks_stepRel img gx gy w (y * w + x) _ s) _ _))
    (pixelChecks_stepRel img gx gy w (y * w + w - 1) _ _))
    (foldl_stepRel _ (fun s x => pixelChecks_stepRel img gx gy w (y * w + x) _ s) _ _)

lemma backwardRow_stepRel (img gx gy : List ℚ) (w : ℕ) (y : ℕ) (s : EdtState) :
    stepRel s (backwardRow img gx gy w y s) := by
  unfold backwardRow
  refine stepRel_trans (stepRel_trans (stepRel_trans
    (pixelChecks_stepRel img gx gy w (y * w + w - 1) _ s)
    (foldl_stepRel _ (fun s x => pixelChecks_stepRel img gx gy w (y * w + x) _ s) _ _))
    (pixelChecks_stepRel img gx gy w (y * w) _ _))
    (foldl_stepRel _ (fun s x => pixelChecks_stepRel img gx gy w (y * w + x) _ s) _ _)

/-- Specification of one full sweep pass: lengths preserved, `dist`
pointwise non-increasing, and if the pass reports a change then some
entry decreased by more than `epsilon`. -/
lemma sweepPass_spec (img gx gy : List ℚ) (w h : ℕ) (s : EdtState) :
    (sweepPass img gx gy w h s).dist.length = s.dist.length ∧
    (sweepPass img gx gy w h s).distx.length = s.distx.length ∧
    (sweepPass img gx gy w h s).disty.length = s.disty.length ∧
    (∀ j, (sweepPass img gx gy w h s).dist.getD j 0 ≤ s.dist.getD j 0) ∧
    ((sweepPass img gx gy w h s).changed = true →
      ∃ j, (sweepPass img gx gy w h s).dist.getD j 0 <
        s.dist.getD j 0 - epsilon) := by
  unfold sweepPass
  set s₀ : EdtState := ⟨s.distx, s.disty, s.dist, false⟩ with hs₀
  have hrows : stepRel s₀
      (((List.range' 0 (h - 1)).reverse).foldl
        (fun s y => backwardRow img gx gy w y s)
        ((List.range' 1 (h - 1)).foldl (fun s y => forwardRow img gx gy w y s) s₀)) :=
    stepRel_trans
      (foldl_stepRel _ (fun s y => forwardRow_stepRel img gx gy w y s) _ _)
      (foldl_stepRel _ (fun s y => backwardRow_stepRel img gx gy w y s) _ _)
  obtain ⟨h1, h2, h3, h4, h5⟩ := hrows
  refine ⟨h1, h2, h3, h4, fun hc => ?_⟩
  rcases h5 hc with hc' | hj
  · exact absurd hc' (by simp [hs₀])
  · exact hj

/-! ## C2: the triple update discipline and monotonicity of `dist` -/

/-- C2: (a) every candidate check of the sweep either leaves the state
untouched or — exactly when the `distaa3` proposal beats the threaded
stored distance by more than `epsilon` — assigns `distx`, `disty` and
`dist` at the pixel in that same check; (b) a pixel block never increases
any `dist` entry; (c) consequently, after initialization, each pixel's
`dist` value never increases from one sweep pass to the next. -/
theorem C2_triple_update_and_monotone :
    (∀ (img gx gy : List ℚ) (w : ℤ) (i : ℕ) (off dx dy : ℤ)
        (s : EdtState) (old : ℚ),
      candCheck img gx gy w i off dx dy s old = (s, old) ∨
      (∃ nd, nd = distaa3 img gx gy w ((((i : ℤ) + off).toNat : ℕ) : ℤ)
          (s.distx.getD ((i : ℤ) + off).toNat 0)
          (s.disty.getD ((i : ℤ) + off).toNat 0)
          (s.distx.getD ((i : ℤ) + off).toNat 0 + dx)
          (s.disty.getD ((i : ℤ) + off).toNat 0 + dy) ∧
        nd < old - epsilon ∧
        candCheck img gx gy w i off dx dy s old =
          (⟨s.distx.set i (s.distx.getD ((i : ℤ) + off).toNat 0 + dx),
            s.disty.set i (s.disty.getD ((i : ℤ) + off).toNat 0 + dy),
            s.dist.set i nd, true⟩, nd))) ∧
    (∀ (img gx gy : List ℚ) (w : ℤ) (i : ℕ) (cs : List (ℤ × ℤ × ℤ))
        (s : EdtState) (j : ℕ),
      (pixelChecks img gx gy w i cs s).dist.getD j 0 ≤ s.dist.getD j 0) ∧
    (∀ (img gx gy : List ℚ) (w h n j : ℕ),
      ((sweepPass img gx gy w h)^[n+1] (edtaaInit img gx gy (w*h))).dist.getD j 0 ≤
      ((sweepPass img gx gy w h)^[n] (edtaaInit img gx gy (w*h))).dist.getD j 0) := by
  refine ⟨candCheck_cases, ?_, ?_⟩
  · intro img gx gy w i cs s j
    exact (pixelChecks_spec img gx gy w i cs s).2.2.2.1 j
  · intro img gx gy w h n j
    rw [Function.iterate_succ_apply']
    exact (sweepPass_spec img gx gy w h
      ((sweepPass img gx gy w h)^[n] (edtaaInit img gx gy (w*h)))).2.2.2.1 j

/-! ## C10: validity of the stored closest-point offsets -/

lemma getD_replicate_zero {α : Type} [Inhabited α] (d : α) (n c : ℕ) :
    (List.replicate n d).getD c d = d := by
  rcases lt_or_le c n with h | h
  · rw [List.getD_eq_getElem?_getD, List.getElem?_replicate, if_pos h]
    rfl
  · exact getD_of_length_le d (by simpa using h)

/-- The three sweep buffers all have length `wh`. -/
def buffersLen (wh : ℕ) (s : EdtState) : Prop :=
  s.distx.length = wh ∧ s.disty.length = wh ∧ s.dist.length = wh

/-- Every stored `(distx, disty)` pair of every pixel `c < wh` points to a
valid pixel: the index `c - distx[c] - disty[c]*w` that `distaa3` would
compute for candidate `c` lies in `[0, wh)`. -/
def targetsValid (w wh : ℕ) (s : EdtState) : Prop :=
  ∀ c, c < wh →
    0 ≤ (c : ℤ) - s.distx.getD c 0 - s.disty.getD c 0 * (w : ℤ) ∧
    (c : ℤ) - s.distx.getD c 0 - s.disty.getD c 0 * (w : ℤ) < (wh : ℤ)

lemma candCheck_targetsValid (img gx gy : List ℚ) (w wh : ℕ) (i : ℕ)
    (off dx dy : ℤ) (s : EdtState) (old : ℚ)
    (hlen : buffersLen wh s) (htv : targetsValid w wh s)
    (hi : i < wh) (hc0 : 0 ≤ (i : ℤ) + off) (hcw : (i : ℤ) + off < (wh : ℤ))
    (hsum : off + dx + dy * (w : ℤ) = 0) :
    buffersLen wh (candCheck img gx gy (w : ℤ) i off dx dy s old).1 ∧
    targetsValid w wh (candCheck img gx gy (w : ℤ) i off dx dy s old).1 := by
  rcases candCheck_cases img gx gy (w : ℤ) i off dx dy s old with h | ⟨nd, _, _, h⟩
  · rw [h]; exact ⟨hlen, htv⟩
  · rw [h]
    obtain ⟨hlx, hly, hld⟩ := hlen
    refine ⟨⟨by simpa using hlx, by simpa using hly, by simpa using hld⟩, ?_⟩
    intro c hc
    have hcast : ((((i : ℤ) + off).toNat : ℕ) : ℤ) = (i : ℤ) + off :=
      Int.toNat_of_nonneg hc0
    have hcIdx : (((i : ℤ) + off).toNat : ℕ) < wh := by omega
    by_cases hic : i = c
    · subst hic
      have hxi : i < s.distx.length := by omega
      have hyi : i < s.disty.length := by omega
      rw [getD_set_self 0 hxi, getD_set_self 0 hyi]
      obtain ⟨ht0, ht1⟩ := htv (((i : ℤ) + off).toNat) hcIdx
      have hkey : (i : ℤ) - (s.distx.getD ((i : ℤ) + off).toNat 0 + dx) -
          (s.disty.getD ((i : ℤ) + off).toNat 0 + dy) * (w : ℤ) =
          ((((i : ℤ) + off).toNat : ℕ) : ℤ) -
            s.distx.getD ((i : ℤ) + off).toNat 0 -
            s.disty.getD ((i : ℤ) + off).toNat 0 * (w : ℤ) := by
        rw [hcast]
        linear_combination -hsum
      rw [hkey]
      exact ⟨ht0, ht1⟩
    · rw [getD_set_ne 0 hic, getD_set_ne 0 hic]
      exact htv c hc

lemma pixelChecks_targetsValid (img gx gy : List ℚ) (w wh : ℕ) (i : ℕ)
    (cs : List (ℤ × ℤ × ℤ)) (s : EdtState)
    (hlen : buffersLen wh s) (htv : targetsValid w wh s) (hi : i < wh)
    (hcs : ∀ t ∈ cs, 0 ≤ (i : ℤ) + t.1 ∧ (i : ℤ) + t.1 < (wh : ℤ) ∧
      t.1 + t.2.1 + t.2.2 * (w : ℤ) = 0) :
    buffersLen wh (pixelChecks img gx gy (w : ℤ) i cs s) ∧
    targetsValid w wh (pixelChecks img gx gy (w : ℤ) i cs s) := by
  by_cases hpos : 0 < s.dist.getD i 0
  · have hfold : (fun p : EdtState × ℚ =>
        buffersLen wh p.1 ∧ targetsValid w wh p.1)
        (cs.foldl (fun p t => candCheck img gx gy (w : ℤ) i t.1 t.2.1 t.2.2 p.1 p.2)
          (s, s.dist.getD i 0)) :=
      @foldl_preserves_mem (ℤ × ℤ × ℤ) (EdtState × ℚ)
        (fun p => buffersLen wh p.1 ∧ targetsValid w wh p.1)
        (fun p t => candCheck img gx gy (w : ℤ) i t.1 t.2.1 t.2.2 p.1 p.2)
        cs
        (fun p t ht hp => candCheck_targetsValid img gx gy w wh i t.1 t.2.1 t.2.2
          p.1 p.2 hp.1 hp.2 hi (hcs t ht).1 (hcs t ht).2.1 (hcs t ht).2.2)
        (s, s.dist.getD i 0) ⟨hlen, htv⟩
    have heq : pixelChecks img gx gy (w : ℤ) i cs s =
        (cs.foldl (fun p t => candCheck img gx gy (w : ℤ) i t.1 t.2.1 t.2.2 p.1 p.2)
          (s, s.dist.getD i 0)).1 := by
      show (if 0 < s.dist.getD i 0 then
          (cs.foldl (fun p t => candCheck img gx gy (w : ℤ) i t.1 t.2.1 t.2.2 p.1 p.2)
            (s, s.dist.getD i 0)).1
        else s) = _
      rw [if_pos hpos]
    rw [heq]
    exact hfold
  · have heq : pixelChecks img gx gy (w : ℤ) i cs s = s := by
      show (if 0 < s.dist.getD i 0 then
          (cs.foldl (fun p t => candCheck img gx gy (w : ℤ) i t.1 t.2.1 t.2.2 p.1 p.2)
            (s, s.dist.getD i 0)).1
        else s) = s
      rw [if_neg hpos]
    rw [heq]
    exact ⟨hlen, htv⟩

lemma forwardRow_targetsValid (img gx gy : List ℚ) (w h wh y : ℕ)
    (hwh : wh = w * h) (hw : 2 ≤ w) (hy1 : 1 ≤ y) (hyh : y < h)
    (s : EdtState) (hP : buffersLen wh s ∧ targetsValid w wh s) :
    buffersLen wh (forwardRow img gx gy w y s) ∧
    targetsValid w wh (forwardRow img gx gy w y s) := by
  have hYtop : y * w + w ≤ wh := by
    rw [hwh]
    calc y * w + w = (y + 1) * w := by ring
    _ ≤ h * w := Nat.mul_le_mul_right w hyh
    _ = w * h := Nat.mul_comm h w
  have hYw : w ≤ y * w := Nat.le_mul_of_pos_left w (by omega)
  have h1 := pixelChecks_targetsValid img gx gy w wh (y * w)
    [(-(w : ℤ), 0, 1), (-(w : ℤ) + 1, -1, 1)] s hP.1 hP.2 (by omega)
    (by intro t ht; fin_cases ht <;> dsimp only <;>
      refine ⟨by omega, by omega, by omega⟩)
  have h2 := @foldl_preserves_mem ℕ EdtState
    (fun s => buffersLen wh s ∧ targetsValid w wh s)
    (fun s x => pixelChecks img gx gy w (y * w + x)
      [(-1, 1, 0), (-(w : ℤ) - 1, 1, 1), (-(w : ℤ), 0, 1), (-(w : ℤ) + 1, -1, 1)] s)
    (List.range' 1 (w - 2))
    (fun s' x hx hp => by
      have hxb : 1 ≤ x ∧ x < 1 + (w - 2) := List.mem_range'_1.mp hx
      exact pixelChecks_targetsValid img gx gy w wh (y * w + x) _ s' hp.1 hp.2
        (by omega)
        (by intro t ht; fin_cases ht <;> dsimp only <;>
          refine ⟨by omega, by omega, by omega⟩))
    _ h1
  have h3 := pixelChecks_targetsValid img gx gy w wh (y * w + w - 1)
    [(-1, 1, 0), (-(w : ℤ) - 1, 1, 1), (-(w : ℤ), 0, 1)] _ h2.1 h2.2 (by omega)
    (by intro t ht; fin_cases ht <;> dsimp only <;>
      refine ⟨by omega, by omega, by omega⟩)
  have h4 := @foldl_preserves_mem ℕ EdtState
    (fun s => buffersLen wh s ∧ targetsValid w wh s)
    (fun s x => pixelChecks img gx gy w (y * w + x) [(1, -1, 0)] s)
    ((List.range' 0 (w - 1)).reverse)
    (fun s' x hx hp => by
      have hxb : 0 ≤ x ∧ x < 0 + (w - 1) :=
        List.mem_range'_1.mp (List.mem_reverse.mp hx)
      exact pixelChecks_targetsValid img gx gy w wh (y * w + x) _ s' hp.1 hp.2
        (by omega)
        (by intro t ht; fin_cases ht <;> dsimp only <;>
          refine ⟨by omega, by omega, by omega⟩))
    _ h3
  exact h4

lemma backwardRow_targetsValid (img gx gy : List ℚ) (w h wh y : ℕ)
    (hwh : wh = w * h) (hw : 2 ≤ w) (hyh : y + 2 ≤ h)
    (s : EdtState) (hP : buffersLen wh s ∧ targetsValid w wh s) :
    buffersLen wh (backwardRow img gx gy w y s) ∧
    targetsValid w wh (backwardRow img gx gy w y s) := by
  have hYtop : y * w + 2 * w ≤ wh := by
    rw [hwh]
    calc y * w + 2 * w = (y + 2) * w := by ring
    _ ≤ h * w := Nat.mul_le_mul_right w (by omega)
    _ = w * h := Nat.mul_comm h w
  have h1 := pixelChecks_targetsValid img gx gy w wh (y * w + w - 1)
    [((w : ℤ), 0, -1), ((w : ℤ) - 1, 1, -1)] s hP.1 hP.2 (by omega)
    (by intro t ht; fin_cases ht <;> dsimp only <;>
      refine ⟨by omega, by omega, by omega⟩)
  have h2 := @foldl_preserves_mem ℕ EdtState
    (fun s => buffersLen wh s ∧ targetsValid w wh s)
    (fun s x => pixelChecks img gx gy w (y * w + x)
      [(1, -1, 0), ((w : ℤ) + 1, -1, -1), ((w : ℤ), 0, -1), ((w : ℤ) - 1, 1, -1)] s)
    ((List.range' 1 (w - 2)).reverse)
    (fun s' x hx hp => by
      have hxb : 1 ≤ x ∧ x < 1 + (w - 2) :=
        List.mem_range'_1.mp (List.mem_reverse.mp hx)
      exact pixelChecks_targetsValid img gx gy w wh (y * w + x) _ s' hp.1 hp.2
        (by omega)
        (by intro t ht; fin_cases ht <;> dsimp only <;>
          refine ⟨by omega, by omega, by omega⟩))
    _ h1
  have h3 := pixelChecks_targetsValid img gx gy w wh (y * w)
    [(1, -1, 0), ((w : ℤ) + 1, -1, -1), ((w : ℤ), 0, -1)] _ h2.1 h2.2 (by omega)
    (by intro t ht; fin_cases ht <;> dsimp only <;>
      refine ⟨by omega, by omega, by omega⟩)
  have h4 := @foldl_preserves_mem ℕ EdtState
    (fun s => buffersLen wh s ∧ targetsValid w wh s)
    (fun s x => pixelChecks img gx gy w (y * w + x) [(-1, 1, 0)] s)
    (List.range' 1 (w - 1))
    (fun s' x hx hp => by
      have hxb : 1 ≤ x ∧ x < 1 + (w - 1) := List.mem_range'_1.mp hx
      exact pixelChecks_targetsValid img gx gy w wh (y * w + x) _ s' hp.1 hp.2
        (by omega)
        (by intro t ht; fin_cases ht <;> dsimp only <;>
          refine ⟨by omega, by omega, by omega⟩))
    _ h3
  exact h4

lemma sweepPass_targetsValid (img gx gy : List ℚ) (w h wh : ℕ)
    (hwh : wh = w * h) (hw : 2 ≤ w) (s : EdtState)
    (hP : buffersLen wh s ∧ targetsValid w wh s) :
    buffersLen wh (sweepPass img gx gy w h s) ∧
    targetsValid w wh (sweepPass img gx gy w h s) := by
  have h0 : buffersLen wh (⟨s.distx, s.disty, s.dist, false⟩ : EdtState) ∧
      targetsValid w wh (⟨s.distx, s.disty, s.dist, false⟩ : EdtState) := hP
  have h1 := @foldl_preserves_mem ℕ EdtState
    (fun s => buffersLen wh s ∧ targetsValid w wh s)
    (fun s y => forwardRow img gx gy w y s)
    (List.range' 1 (h - 1))
    (fun s' y hy hp => by
      have hyb : 1 ≤ y ∧ y < 1 + (h - 1) := List.mem_range'_1.mp hy
      exact forwardRow_targetsValid img gx gy w h wh y hwh hw hyb.1 (by omega) s' hp)
    _ h0
  have h2 := @foldl_preserves_mem ℕ EdtState
    (fun s => buffersLen wh s ∧ targetsValid w wh s)
    (fun s y => backwardRow img gx gy w y s)
    ((List.range' 0 (h - 1)).reverse)
    (fun s' y hy hp => by
      have hyb : 0 ≤ y ∧ y < 0 + (h - 1) :=
        List.mem_range'_1.mp (List.mem_reverse.mp hy)
      exact backwardRow_targetsValid img gx gy w h wh y hwh hw (by omega) s' hp)
    _ h1
  exact h2

lemma edtaaInit_targetsValid (img gx gy : List ℚ) (w wh : ℕ) :
    buffersLen wh (edtaaInit img gx gy wh) ∧
    targetsValid w wh (edtaaInit img gx gy wh) := by
  constructor
  · exact ⟨List.length_replicate wh 0, List.length_replicate wh 0,
      by simp [edtaaInit]⟩
  · intro c hc
    have hx : (List.replicate wh (0 : ℤ)).getD c 0 = 0 := getD_replicate_zero 0 wh c
    unfold edtaaInit
    simp only [hx]
    omega

/-- In the idealized model with unbounded offset buffers: for every image
with `w, h ≥ 2` and buffers of length `w*h`, after any number of sweep
passes every stored `(distx, disty)` pair of every pixel `c` points to a
valid pixel — the candidate index `c - distx[c] - disty[c]*w` that
`distaa3` computes lies in `[0, w*h)`.  This describes the source only
while every stored offset component fits in `i16` (both dimensions below
32768); beyond that the source wraps and the property fails, see
`C10_i16_wrap_out_of_bounds`. -/
theorem closest_index_in_bounds_unbounded_offsets (img gx gy : List ℚ) (w h : ℕ)
    (hw : 2 ≤ w) (hh : 2 ≤ h) (himg : img.length = w * h)
    (hgx : gx.length = w * h) (hgy : gy.length = w * h) :
    ∀ (n c : ℕ), c < w * h →
    0 ≤ (c : ℤ) -
      ((sweepPass img gx gy w h)^[n] (edtaaInit img gx gy (w * h))).distx.getD c 0 -
      ((sweepPass img gx gy w h)^[n] (edtaaInit img gx gy (w * h))).disty.getD c 0
        * (w : ℤ) ∧
    (c : ℤ) -
      ((sweepPass img gx gy w h)^[n] (edtaaInit img gx gy (w * h))).distx.getD c 0 -
      ((sweepPass img gx gy w h)^[n] (edtaaInit img gx gy (w * h))).disty.getD c 0
        * (w : ℤ) < ((w * h : ℕ) : ℤ) := by
  have key : ∀ n : ℕ,
      buffersLen (w * h) ((sweepPass img gx gy w h)^[n] (edtaaInit img gx gy (w * h))) ∧
      targetsValid w (w * h) ((sweepPass img gx gy w h)^[n] (edtaaInit img gx gy (w * h))) := by
    intro n
    induction n with
    | zero => exact edtaaInit_targetsValid img gx gy w (w * h)
    | succ m ih =>
      rw [Function.iterate_succ_apply']
      exact sweepPass_targetsValid img gx gy w h (w * h) rfl hw _ ih
  intro n c hc
  exact (key n).2 c hc

/-- The idealized bounds property instantiated on a concrete 2×2 input
after one sweep pass. -/
theorem closest_index_in_bounds_unbounded_check :
    0 ≤ (0 : ℤ) -
      ((sweepPass (List.replicate 4 0) (List.replicate 4 0) (List.replicate 4 0) 2 2)^[1]
        (edtaaInit (List.replicate 4 0) (List.replicate 4 0) (List.replicate 4 0) (2 * 2))).distx.getD 0 0 -
      ((sweepPass (List.replicate 4 0) (List.replicate 4 0) (List.replicate 4 0) 2 2)^[1]
        (edtaaInit (List.replicate 4 0) (List.replicate 4 0) (List.replicate 4 0) (2 * 2))).disty.getD 0 0
        * (2 : ℤ) ∧
    (0 : ℤ) -
      ((sweepPass (List.replicate 4 0) (List.replicate 4 0) (List.replicate 4 0) 2 2)^[1]
        (edtaaInit (List.replicate 4 0) (List.replicate 4 0) (List.replicate 4 0) (2 * 2))).distx.getD 0 0 -
      ((sweepPass (List.replicate 4 0) (List.replicate 4 0) (List.replicate 4 0) 2 2)^[1]
        (edtaaInit (List.replicate 4 0) (List.replicate 4 0) (List.replicate 4 0) (2 * 2))).disty.getD 0 0
        * (2 : ℤ) < ((2 * 2 : ℕ) : ℤ) :=
  closest_index_in_bounds_unbounded_offsets (List.replicate 4 0) (List.replicate 4 0)
    (List.replicate 4 0) 2 2 (by norm_num) (by norm_num) (by norm_num)
    (by norm_num) (by norm_num) 1 0 (by norm_num)

/-- Model of Rust release-mode `i16` two's-complement arithmetic: the
value an `i16` addition actually stores when its mathematical result is
`n`.  (Debug builds panic on overflow instead.) -/
def wrap16 (n : ℤ) : ℤ := (n + 32768) % 65536 - 32768

/-- C10 (failing evaluation): the source stores the sweep offsets as
`i16`, so the in-bounds property fails on images with a dimension beyond
32767.  On a 2×40000 bitmap whose only object pixel is index 0, the
first forward pass propagates straight down column 0 and stores
`disty = y` at row `y`; at row 32768 the north check computes
`cdisty + 1 = 32767 + 1`, which the `i16` buffer wraps to `-32768`
(debug builds panic right here).  The next row's north check then uses
candidate `c = 65536` (row 32768, column 0) with stored pair
`(0, wrap16 (32767 + 1))`, and the candidate index
`c - distx[c] - disty[c]*w` of `distaa3` evaluates to `131072`, which is
not below `w*h = 2*40000` — the slice access `img[closest]` is out of
bounds, contradicting the claim. -/
theorem C10_i16_wrap_out_of_bounds :
    wrap16 (32767 + 1) = -32768 ∧
    (65536 : ℤ) - 0 - wrap16 (32767 + 1) * 2 = 131072 ∧
    ¬ ((65536 : ℤ) - 0 - wrap16 (32767 + 1) * 2 < ((2 * 40000 : ℕ) : ℤ)) := by
  refine ⟨by decide, by decide, by decide⟩

/-! ## Correctness of the Newton floor square root -/

lemma natSqrtAux_spec (n : ℕ) (hn : 2 ≤ n) :
    ∀ (fuel g : ℕ), 0 < g → g ≤ fuel → (∀ m : ℕ, m * m ≤ n → m ≤ g) →
    natSqrtAux n fuel g * natSqrtAux n fuel g ≤ n ∧
    (∀ m : ℕ, m * m ≤ n → m ≤ natSqrtAux n fuel g) := by
  intro fuel
  induction fuel with
  | zero => intro g hg hgf _; omega
  | succ f ih =>
    intro g hg hgf hinv
    have hnext_inv : ∀ m : ℕ, m * m ≤ n → m ≤ (g + n / g) / 2 := by
      intro m hm
      have h1 : m * m / g ≤ n / g := Nat.div_le_div_right hm
      have key : 2 * m ≤ g + m * m / g := by
        have hge : 0 ≤ m * m / g := Nat.zero_le _
        rcases le_or_lt (2 * m) g with hc | hc
        · omega
        · have hg2m : g ≤ 2 * m := le_of_lt hc
          have hdg : (2 * m - g) * g ≤ m * m := by
            zify [hg2m]
            nlinarith [sq_nonneg ((m : ℤ) - g)]
          have : 2 * m - g ≤ m * m / g := (Nat.le_div_iff_mul_le hg).mpr hdg
          omega
      exact (Nat.le_div_iff_mul_le (by norm_num)).mpr (by omega)
    by_cases hlt : (g + n / g) / 2 < g
    · have h0next : 0 < (g + n / g) / 2 :=
        lt_of_lt_of_le (by norm_num) (hnext_inv 1 (by omega))
      have heq : natSqrtAux n (f + 1) g = natSqrtAux n f ((g + n / g) / 2) := by
        simp only [natSqrtAux]
        rw [if_pos hlt]
      rw [heq]
      exact ih ((g + n / g) / 2) h0next (by omega) hnext_inv
    · have heq : natSqrtAux n (f + 1) g = g := by
        simp only [natSqrtAux]
        rw [if_neg hlt]
      rw [heq]
      refine ⟨?_, hinv⟩
      have h2g : g ≤ (g + n / g) / 2 := le_of_not_lt hlt
      have : g * 2 ≤ g + n / g := (Nat.le_div_iff_mul_le (by norm_num)).mp h2g
      have hgng : g ≤ n / g := by omega
      exact (Nat.le_div_iff_mul_le hg).mp hgng

lemma natSqrt_spec (n : ℕ) :
    natSqrt n * natSqrt n ≤ n ∧ ∀ m : ℕ, m * m ≤ n → m ≤ natSqrt n := by
  unfold natSqrt
  by_cases h : n ≤ 1
  · rw [if_pos h]
    interval_cases n
    · exact ⟨by norm_num, fun m hm => by nlinarith⟩
    · exact ⟨by norm_num, fun m hm => by nlinarith⟩
  · rw [if_neg h]
    push_neg at h
    refine natSqrtAux_spec n h n (n / 2) (by omega) (Nat.div_le_self n 2) ?_
    intro m hm
    rcases le_or_lt m 1 with h1 | h1
    · omega
    · have hmn : m ≤ n / m := (Nat.le_div_iff_mul_le (by omega)).mpr hm
      have : n / m ≤ n / 2 := Nat.div_le_div_left (by omega) (by norm_num)
      omega

lemma natSqrt_mono {a b : ℕ} (h : a ≤ b) : natSqrt a ≤ natSqrt b :=
  (natSqrt_spec b).2 (natSqrt a) (le_trans (natSqrt_spec a).1 h)

lemma natSqrt_perfect (t : ℕ) : natSqrt (t * t) = t := by
  have h1 := (natSqrt_spec (t * t)).1
  have h2 := (natSqrt_spec (t * t)).2 t (le_refl _)
  nlinarith

/-! ## Bounds for the rational square root -/

lemma ratSqrtPrec_pos : (0 : ℚ) < (ratSqrtPrec : ℚ) := by
  norm_num [ratSqrtPrec]

lemma ratSqrt_nonneg (q : ℚ) : 0 ≤ ratSqrt q := by
  unfold ratSqrt
  positivity

lemma ratSqrt_pos_ge (q : ℚ) (h : 0 < ratSqrt q) :
    1 / (ratSqrtPrec : ℚ) ≤ ratSqrt q := by
  unfold ratSqrt at h ⊢
  set k : ℕ := natSqrt (Int.toNat ⌊q * ((ratSqrtPrec * ratSqrtPrec : ℕ) : ℚ)⌋)
  have hk : 1 ≤ (k : ℚ) := by
    have hk0 : k ≠ 0 := by
      intro h0
      rw [h0] at h
      norm_num at h
    exact_mod_cast Nat.one_le_iff_ne_zero.mpr hk0
  have hP := ratSqrtPrec_pos
  rw [div_le_div_iff hP hP]
  nlinarith

lemma ratSqrt_mono {q q' : ℚ} (h : q ≤ q') : ratSqrt q ≤ ratSqrt q' := by
  unfold ratSqrt
  have hfl : ⌊q * ((ratSqrtPrec * ratSqrtPrec : ℕ) : ℚ)⌋ ≤
      ⌊q' * ((ratSqrtPrec * ratSqrtPrec : ℕ) : ℚ)⌋ :=
    Int.floor_le_floor (by nlinarith [ratSqrtPrec_pos])
  have hnat : Int.toNat ⌊q * ((ratSqrtPrec * ratSqrtPrec : ℕ) : ℚ)⌋ ≤
      Int.toNat ⌊q' * ((ratSqrtPrec * ratSqrtPrec : ℕ) : ℚ)⌋ :=
    Int.toNat_le_toNat hfl
  have := natSqrt_mono hnat
  have hP := ratSqrtPrec_pos
  have hc : (natSqrt (Int.toNat ⌊q * ((ratSqrtPrec * ratSqrtPrec : ℕ) : ℚ)⌋) : ℚ) ≤
      (natSqrt (Int.toNat ⌊q' * ((ratSqrtPrec * ratSqrtPrec : ℕ) : ℚ)⌋) : ℚ) := by
    exact_mod_cast this
  exact (div_le_div_right hP).mpr hc

lemma ratSqrt_sq_le (q : ℚ) (hq : 0 ≤ q) : ratSqrt q * ratSqrt q ≤ q := by
  unfold ratSqrt
  set m : ℕ := Int.toNat ⌊q * ((ratSqrtPrec * ratSqrtPrec : ℕ) : ℚ)⌋ with hm
  have h1 : (natSqrt m * natSqrt m : ℚ) ≤ (m : ℚ) := by
    exact_mod_cast (natSqrt_spec m).1
  have h2 : (m : ℚ) ≤ q * ((ratSqrtPrec : ℚ) * (ratSqrtPrec : ℚ)) := by
    have hfl0 : 0 ≤ ⌊q * ((ratSqrtPrec * ratSqrtPrec : ℕ) : ℚ)⌋ :=
      Int.le_floor.mpr (by push_cast; positivity)
    rw [hm]
    rw [show ((Int.toNat ⌊q * ((ratSqrtPrec * ratSqrtPrec : ℕ) : ℚ)⌋ : ℕ) : ℚ) =
        ((⌊q * ((ratSqrtPrec * ratSqrtPrec : ℕ) : ℚ)⌋ : ℤ) : ℚ) by
      exact_mod_cast congrArg Int.cast (Int.toNat_of_nonneg hfl0)]
    calc ((⌊q * ((ratSqrtPrec * ratSqrtPrec : ℕ) : ℚ)⌋ : ℤ) : ℚ) ≤
        q * ((ratSqrtPrec * ratSqrtPrec : ℕ) : ℚ) := Int.floor_le _
    _ = q * ((ratSqrtPrec : ℚ) * (ratSqrtPrec : ℚ)) := by push_cast; ring
  have hP := ratSqrtPrec_pos
  rw [div_mul_div_comm, div_le_iff (by positivity)]
  nlinarith

lemma ratSqrt_le_of_sq (q b : ℚ) (hb : 0 ≤ b) (h : q ≤ b * b) :
    ratSqrt q ≤ b := by
  rcases le_or_lt q 0 with hq | hq
  · have hz : ratSqrt q ≤ ratSqrt 0 := ratSqrt_mono hq
    have h0 : ratSqrt 0 = 0 := by
      unfold ratSqrt
      norm_num [show natSqrt 0 = 0 from rfl]
    rw [h0] at hz
    linarith
  · have h1 := ratSqrt_sq_le q (le_of_lt hq)
    have h2 := ratSqrt_nonneg q
    nlinarith

lemma ratSqrt_sq_lb (x : ℚ) :
    |x| - 1 / (ratSqrtPrec : ℚ) ≤ ratSqrt (x * x) := by
  have hP := ratSqrtPrec_pos
  set t : ℕ := (⌊|x| * (ratSqrtPrec : ℚ)⌋).toNat with hT
  have hfl0 : 0 ≤ ⌊|x| * (ratSqrtPrec : ℚ)⌋ := Int.le_floor.mpr (by positivity)
  have ht_le : (t : ℚ) ≤ |x| * (ratSqrtPrec : ℚ) := by
    rw [hT]
    rw [show ((((⌊|x| * (ratSqrtPrec : ℚ)⌋).toNat : ℕ)) : ℚ) =
        ((⌊|x| * (ratSqrtPrec : ℚ)⌋ : ℤ) : ℚ) by
      exact_mod_cast congrArg Int.cast (Int.toNat_of_nonneg hfl0)]
    exact Int.floor_le _
  have ht_ge : |x| * (ratSqrtPrec : ℚ) - 1 ≤ (t : ℚ) := by
    rw [hT]
    rw [show ((((⌊|x| * (ratSqrtPrec : ℚ)⌋).toNat : ℕ)) : ℚ) =
        ((⌊|x| * (ratSqrtPrec : ℚ)⌋ : ℤ) : ℚ) by
      exact_mod_cast congrArg Int.cast (Int.toNat_of_nonneg hfl0)]
    linarith [Int.sub_one_lt_floor (|x| * (ratSqrtPrec : ℚ))]
  have htt : (t * t : ℕ) ≤ Int.toNat ⌊x * x * ((ratSqrtPrec * ratSqrtPrec : ℕ) : ℚ)⌋ := by
    have habs : |x| * |x| = x * x := abs_mul_abs_self x
    have h1 : ((t * t : ℕ) : ℚ) ≤ x * x * ((ratSqrtPrec * ratSqrtPrec : ℕ) : ℚ) := by
      push_cast
      nlinarith
    have h2 : ((t * t : ℕ) : ℤ) ≤ ⌊x * x * ((ratSqrtPrec * ratSqrtPrec : ℕ) : ℚ)⌋ :=
      Int.le_floor.mpr (by exact_mod_cast h1)
    omega
  have hs : t ≤ natSqrt (Int.toNat ⌊x * x * ((ratSqrtPrec * ratSqrtPrec : ℕ) : ℚ)⌋) := by
    have := natSqrt_mono htt
    rwa [natSqrt_perfect t] at this
  unfold ratSqrt
  have hs' : (t : ℚ) ≤
      (natSqrt (Int.toNat ⌊x * x * ((ratSqrtPrec * ratSqrtPrec : ℕ) : ℚ)⌋) : ℚ) := by
    exact_mod_cast hs
  rw [le_div_iff hP]
  have hgoal : (|x| - 1 / (ratSqrtPrec : ℚ)) * (ratSqrtPrec : ℚ) =
      |x| * (ratSqrtPrec : ℚ) - 1 := by
    rw [sub_mul, one_div, inv_mul_cancel₀ (ne_of_gt hP)]
  rw [hgoal]
  linarith

/-! ## Lower bound for `edgedf` and `distaa3` -/

lemma normalized_fst_le_two (x y : ℚ) :
    |if ratSqrt (x * x + y * y) > 0 then x / ratSqrt (x * x + y * y) else x| ≤ 2 := by
  have hP : (ratSqrtPrec : ℚ) = 1000000 := by norm_num [ratSqrtPrec]
  by_cases hpos : ratSqrt (x * x + y * y) > 0
  · rw [if_pos hpos, abs_div, abs_of_pos hpos]
    rw [div_le_iff hpos]
    have hg1 : 1 / (ratSqrtPrec : ℚ) ≤ ratSqrt (x * x + y * y) :=
      ratSqrt_pos_ge _ hpos
    have hg2 : |x| - 1 / (ratSqrtPrec : ℚ) ≤ ratSqrt (x * x + y * y) :=
      le_trans (by linarith [ratSqrt_sq_lb x,
        ratSqrt_mono (by nlinarith : x * x ≤ x * x + y * y)]) (le_refl _)
    rw [hP] at hg1 hg2
    rcases le_or_lt |x| (2 / 1000000) with hc | hc
    · linarith
    · linarith
  · rw [if_neg hpos]
    have hG0 : ratSqrt (x * x + y * y) = 0 :=
      le_antisymm (not_lt.mp hpos) (ratSqrt_nonneg _)
    have hle : ratSqrt (x * x) ≤ ratSqrt (x * x + y * y) :=
      ratSqrt_mono (by nlinarith)
    have hlb := ratSqrt_sq_lb x
    rw [hG0] at hle
    rw [hP] at hlb
    linarith

lemma normalized_snd_le_two (x y : ℚ) :
    |if ratSqrt (x * x + y * y) > 0 then y / ratSqrt (x * x + y * y) else y| ≤ 2 := by
  have hP : (ratSqrtPrec : ℚ) = 1000000 := by norm_num [ratSqrtPrec]
  by_cases hpos : ratSqrt (x * x + y * y) > 0
  · rw [if_pos hpos, abs_div, abs_of_pos hpos]
    rw [div_le_iff hpos]
    have hg1 : 1 / (ratSqrtPrec : ℚ) ≤ ratSqrt (x * x + y * y) :=
      ratSqrt_pos_ge _ hpos
    have hg2 : |y| - 1 / (ratSqrtPrec : ℚ) ≤ ratSqrt (x * x + y * y) :=
      le_trans (by linarith [ratSqrt_sq_lb y,
        ratSqrt_mono (by nlinarith : y * y ≤ x * x + y * y)]) (le_refl _)
    rw [hP] at hg1 hg2
    rcases le_or_lt |y| (2 / 1000000) with hc | hc
    · linarith
    · linarith
  · rw [if_neg hpos]
    have hG0 : ratSqrt (x * x + y * y) = 0 :=
      le_antisymm (not_lt.mp hpos) (ratSqrt_nonneg _)
    have hle : ratSqrt (y * y) ≤ ratSqrt (x * x + y * y) :=
      ratSqrt_mono (by nlinarith)
    have hlb := ratSqrt_sq_lb y
    rw [hG0] at hle
    rw [hP] at hlb
    linarith

lemma edgedf_branch_lb (g3 g4 a a1 : ℚ) (h0 : 0 ≤ a) (h1 : a ≤ 1)
    (hg40 : 0 ≤ g4) (hg43 : g4 ≤ g3) (hg32 : g3 ≤ 2) :
    -3 ≤ (if a < a1 then 1/2 * (g3 + g4) - ratSqrt (2 * g3 * g4 * a)
      else if a < 1 - a1 then (1/2 - a) * g3
      else -(1/2) * (g3 + g4) + ratSqrt (2 * g3 * g4 * (1 - a))) := by
  have hg30 : 0 ≤ g3 := le_trans hg40 hg43
  split_ifs with hb1 hb2
  · have hq1 : g3 * g4 ≤ 4 := by
      nlinarith [mul_le_mul_of_nonneg_left hg43 hg30]
    have hq2 : 2 * g3 * g4 * a ≤ 9 := by
      nlinarith [mul_nonneg hg30 hg40,
        mul_nonneg (mul_nonneg hg30 hg40) (by linarith : (0:ℚ) ≤ 1 - a)]
    have hle : ratSqrt (2 * g3 * g4 * a) ≤ 3 :=
      ratSqrt_le_of_sq _ 3 (by norm_num) (by linarith)
    linarith
  · have hm : -(1/2) * g3 ≤ (1/2 - a) * g3 :=
      mul_le_mul_of_nonneg_right (by linarith) hg30
    linarith
  · have := ratSqrt_nonneg (2 * g3 * g4 * (1 - a))
    linarith

lemma edgedf_lb (gx gy a : ℚ) (h0 : 0 ≤ a) (h1 : a ≤ 1) :
    -3 ≤ edgedf gx gy a := by
  unfold edgedf
  by_cases h : gx = 0 ∨ gy = 0
  · rw [if_pos h]
    linarith
  · rw [if_neg h]
    dsimp only
    set G := ratSqrt (gx * gx + gy * gy) with hG
    set nx := if G > 0 then gx / G else gx with hnx
    set ny := if G > 0 then gy / G else gy with hny
    have hxb : |nx| ≤ 2 := by
      rw [hnx, hG]
      exact normalized_fst_le_two gx gy
    have hyb : |ny| ≤ 2 := by
      rw [hny, hG]
      exact normalized_snd_le_two gx gy
    refine edgedf_branch_lb _ _ a _ h0 h1 ?_ ?_ ?_
    · split_ifs <;> positivity
    · split_ifs with hc
      · exact le_of_lt hc
      · exact not_lt.mp hc
    · split_ifs with hc
      · exact hyb
      · exact hxb

lemma distaa3_lb (img gximg gyimg : List ℚ) (w c xc yc xi yi : ℤ) :
    -3 ≤ distaa3 img gximg gyimg w c xc yc xi yi := by
  unfold distaa3
  dsimp only
  set a₀ := img.getD (c - xc - yc * w).toNat 0 with ha₀
  have hr := ratSqrt_nonneg ((xi : ℚ) * (xi : ℚ) + (yi : ℚ) * (yi : ℚ))
  split_ifs
  all_goals try norm_num
  all_goals try (have he := edgedf_lb (gximg[(c - xc - yc * w).toNat]?.getD 0) (gyimg[(c - xc - yc * w).toNat]?.getD 0) 1 (by norm_num) (by norm_num); linarith)
  all_goals try (have he := edgedf_lb ((xi : ℤ) : ℚ) ((yi : ℤ) : ℚ) 1 (by norm_num) (by norm_num); linarith)
  all_goals try (have he := edgedf_lb (gximg[(c - xc - yc * w).toNat]?.getD 0) (gyimg[(c - xc - yc * w).toNat]?.getD 0) a₀ (by linarith) (by linarith); linarith)
  all_goals try (have he := edgedf_lb ((xi : ℤ) : ℚ) ((yi : ℤ) : ℚ) a₀ (by linarith) (by linarith); linarith)
  all_goals try (have he := edgedf_lb (gximg[(c - xc - yc * w).toNat]?.getD 0) (gyimg[(c - xc - yc * w).toNat]?.getD 0) 0 (by norm_num) (by norm_num); linarith)
  all_goals (have he := edgedf_lb ((xi : ℤ) : ℚ) ((yi : ℤ) : ℚ) 0 (by norm_num) (by norm_num); linarith)

/-! ## The lower-bound invariant of the distance buffer -/

/-- Every entry of the distance buffer is at least `-3` (the sentinel,
interior zeros, and all `edgedf`/`distaa3` values satisfy this). -/
def distLB (s : EdtState) : Prop := ∀ j, -3 ≤ s.dist.getD j 0

lemma candCheck_distLB (img gx gy : List ℚ) (w : ℤ) (i : ℕ) (off dx dy : ℤ)
    (s : EdtState) (old : ℚ) (h : distLB s) :
    distLB (candCheck img gx gy w i off dx dy s old).1 := by
  rcases candCheck_cases img gx gy w i off dx dy s old with heq | ⟨nd, hnd, _, heq⟩
  · rw [heq]; exact h
  · rw [heq]
    intro j
    by_cases hij : i = j
    · subst hij
      rcases lt_or_le i s.dist.length with hlt | hle
      · rw [getD_set_self 0 hlt, hnd]
        exact distaa3_lb img gx gy w _ _ _ _ _
      · rw [List.set_eq_of_length_le hle, getD_of_length_le 0 hle]
        norm_num
    · rw [getD_set_ne 0 hij]
      exact h j

lemma pixelChecks_distLB (img gx gy : List ℚ) (w : ℤ) (i : ℕ)
    (cs : List (ℤ × ℤ × ℤ)) (s : EdtState) (h : distLB s) :
    distLB (pixelChecks img gx gy w i cs s) := by
  by_cases hpos : 0 < s.dist.getD i 0
  · have hfold : (fun p : EdtState × ℚ => distLB p.1)
        (cs.foldl (fun p t => candCheck img gx gy w i t.1 t.2.1 t.2.2 p.1 p.2)
          (s, s.dist.getD i 0)) :=
      @foldl_preserves (ℤ × ℤ × ℤ) (EdtState × ℚ) (fun p => distLB p.1)
        (fun p t => candCheck img gx gy w i t.1 t.2.1 t.2.2 p.1 p.2)
        (fun p t hp => candCheck_distLB img gx gy w i t.1 t.2.1 t.2.2 p.1 p.2 hp)
        cs (s, s.dist.getD i 0) h
    have heq : pixelChecks img gx gy w i cs s =
        (cs.foldl (fun p t => candCheck img gx gy w i t.1 t.2.1 t.2.2 p.1 p.2)
          (s, s.dist.getD i 0)).1 := by
      show (if 0 < s.dist.getD i 0 then
          (cs.foldl (fun p t => candCheck img gx gy w i t.1 t.2.1 t.2.2 p.1 p.2)
            (s, s.dist.getD i 0)).1
        else s) = _
      rw [if_pos hpos]
    rw [heq]
    exact hfold
  · have heq : pixelChecks img gx gy w i cs s = s := by
      show (if 0 < s.dist.getD i 0 then
          (cs.foldl (fun p t => candCheck img gx gy w i t.1 t.2.1 t.2.2 p.1 p.2)
            (s, s.dist.getD i 0)).1
        else s) = s
      rw [if_neg hpos]
    rw [heq]
    exact h

lemma forwardRow_distLB (img gx gy : List ℚ) (w y : ℕ) (s : EdtState)
    (h : distLB s) : distLB (forwardRow img gx gy w y s) := by
  have h1 := pixelChecks_distLB img gx gy w (y * w)
    [(-(w : ℤ), 0, 1), (-(w : ℤ) + 1, -1, 1)] s h
  have h2 := @foldl_preserves ℕ EdtState distLB
    (fun s x => pixelChecks img gx gy w (y * w + x)
      [(-1, 1, 0), (-(w : ℤ) - 1, 1, 1), (-(w : ℤ), 0, 1), (-(w : ℤ) + 1, -1, 1)] s)
    (fun s x hs => pixelChecks_distLB img gx gy w (y * w + x) _ s hs)
    (List.range' 1 (w - 2)) _ h1
  have h3 := pixelChecks_distLB img gx gy w (y * w + w - 1)
    [(-1, 1, 0), (-(w : ℤ) - 1, 1, 1), (-(w : ℤ), 0, 1)] _ h2
  have h4 := @foldl_preserves ℕ EdtState distLB
    (fun s x => pixelChecks img gx gy w (y * w + x) [(1, -1, 0)] s)
    (fun s x hs => pixelChecks_distLB img gx gy w (y * w + x) _ s hs)
    ((List.range' 0 (w - 1)).reverse) _ h3
  exact h4

lemma backwardRow_distLB (img gx gy : List ℚ) (w y : ℕ) (s : EdtState)
    (h : distLB s) : distLB (backwardRow img gx gy w y s) := by
  have h1 := pixelChecks_distLB img gx gy w (y * w + w - 1)
    [((w : ℤ), 0, -1), ((w : ℤ) - 1, 1, -1)] s h
  have h2 := @foldl_preserves ℕ EdtState distLB
    (fun s x => pixelChecks img gx gy w (y * w + x)
      [(1, -1, 0), ((w : ℤ) + 1, -1, -1), ((w : ℤ), 0, -1), ((w : ℤ) - 1, 1, -1)] s)
    (fun s x hs => pixelChecks_distLB img gx gy w (y * w + x) _ s hs)
    ((List.range' 1 (w - 2)).reverse) _ h1
  have h3 := pixelChecks_distLB img gx gy w (y * w)
    [(1, -1, 0), ((w : ℤ) + 1, -1, -1), ((w : ℤ), 0, -1)] _ h2
  have h4 := @foldl_preserves ℕ EdtState distLB
    (fun s x => pixelChecks img gx gy w (y * w + x) [(-1, 1, 0)] s)
    (fun s x hs => pixelChecks_distLB img gx gy w (y * w + x) _ s hs)
    (List.range' 1 (w - 1)) _ h3
  exact h4

lemma sweepPass_distLB (img gx gy : List ℚ) (w h : ℕ) (s : EdtState)
    (hlb : distLB s) : distLB (sweepPass img gx gy w h s) := by
  have h0 : distLB (⟨s.distx, s.disty, s.dist, false⟩ : EdtState) := hlb
  have h1 := @foldl_preserves ℕ EdtState distLB
    (fun s y => forwardRow img gx gy w y s)
    (fun s y hs => forwardRow_distLB img gx gy w y s hs)
    (List.range' 1 (h - 1)) _ h0
  have h2 := @foldl_preserves ℕ EdtState distLB
    (fun s y => backwardRow img gx gy w y s)
    (fun s y hs => backwardRow_distLB img gx gy w y s hs)
    ((List.range' 0 (h - 1)).reverse) _ h1
  exact h2

lemma edtaaInit_distLB (img gx gy : List ℚ) (wh : ℕ) :
    distLB (edtaaInit img gx gy wh) := by
  intro j
  show -3 ≤ ((List.range wh).map (fun i =>
      if img.getD i 0 ≤ 0 then 1000000
      else if img.getD i 0 < 1 then
        edgedf (gx.getD i 0) (gy.getD i 0) (img.getD i 0)
      else 0)).getD j 0
  rw [getD_range_map]
  split_ifs with hj h0 h1
  · norm_num
  · exact edgedf_lb _ _ _ (by push_neg at h0; linarith) (by linarith)
  · norm_num
  · norm_num

/-! ## The termination measure decreases on every changing pass -/

lemma term_mono {d d' : ℚ} (h : d ≤ d') :
    (⌈(d + 4) * 1000⌉).toNat ≤ (⌈(d' + 4) * 1000⌉).toNat :=
  Int.toNat_le_toNat (Int.ceil_le_ceil (by linarith))

lemma term_strict {d d' : ℚ} (hlt : d' < d - epsilon) (hlb : -3 ≤ d') :
    (⌈(d' + 4) * 1000⌉).toNat < (⌈(d + 4) * 1000⌉).toNat := by
  have heps : epsilon = 1 / 1000 := rfl
  have h1 : (d' + 4) * 1000 + 1 ≤ (d + 4) * 1000 := by
    rw [heps] at hlt
    nlinarith
  have h2 : ((⌈(d' + 4) * 1000⌉ : ℤ) : ℚ) < (d' + 4) * 1000 + 1 :=
    Int.ceil_lt_add_one _
  have h3 : ((d + 4) * 1000 : ℚ) ≤ ((⌈(d + 4) * 1000⌉ : ℤ) : ℚ) := Int.le_ceil _
  have hceil : ⌈(d' + 4) * 1000⌉ < ⌈(d + 4) * 1000⌉ := by
    exact_mod_cast lt_of_lt_of_le (lt_of_lt_of_le h2 h1) h3
  have hpos : 0 < ⌈(d + 4) * 1000⌉ := Int.ceil_pos.mpr (by nlinarith)
  exact (Int.toNat_lt_toNat hpos).mpr hceil

lemma mapsum_term_le (l l' : List ℚ) (hlen : l'.length = l.length)
    (hle : ∀ j, l'.getD j 0 ≤ l.getD j 0) :
    (l'.map (fun d => (⌈(d + 4) * 1000⌉).toNat)).sum ≤
    (l.map (fun d => (⌈(d + 4) * 1000⌉).toNat)).sum := by
  induction l generalizing l' with
  | nil =>
    have : l' = [] := List.length_eq_zero.mp (by simpa using hlen)
    subst this
    exact le_refl _
  | cons d t ih =>
    cases l' with
    | nil => simp
    | cons d' t' =>
      simp only [List.map_cons, List.sum_cons]
      have hhead : (⌈(d' + 4) * 1000⌉).toNat ≤ (⌈(d + 4) * 1000⌉).toNat :=
        term_mono (hle 0)
      have htail := ih t' (by simpa using hlen) (fun j => hle (j + 1))
      omega

lemma mapsum_term_lt (l l' : List ℚ) (hlen : l'.length = l.length)
    (hle : ∀ j, l'.getD j 0 ≤ l.getD j 0)
    (hlb : ∀ j, -3 ≤ l'.getD j 0)
    (hstrict : ∃ j, l'.getD j 0 < l.getD j 0 - epsilon) :
    (l'.map (fun d => (⌈(d + 4) * 1000⌉).toNat)).sum <
    (l.map (fun d => (⌈(d + 4) * 1000⌉).toNat)).sum := by
  induction l generalizing l' with
  | nil =>
    obtain ⟨j, hj⟩ := hstrict
    have h1 : l' = [] := List.length_eq_zero.mp (by simpa using hlen)
    subst h1
    have : ((([] : List ℚ)).getD j 0 : ℚ) = 0 := rfl
    rw [this] at hj
    norm_num [epsilon] at hj
  | cons d t ih =>
    cases l' with
    | nil =>
      obtain ⟨j, hj⟩ := hstrict
      exact absurd hlen (by simp)
    | cons d' t' =>
      simp only [List.map_cons, List.sum_cons]
      have hhead : (⌈(d' + 4) * 1000⌉).toNat ≤ (⌈(d + 4) * 1000⌉).toNat :=
        term_mono (hle 0)
      have htail := mapsum_term_le t t' (by simpa using hlen) (fun j => hle (j + 1))
      obtain ⟨j, hj⟩ := hstrict
      cases j with
      | zero =>
        have hs : (⌈(d' + 4) * 1000⌉).toNat < (⌈(d + 4) * 1000⌉).toNat :=
          term_strict hj (hlb 0)
        omega
      | succ k =>
        have hs := ih t' (by simpa using hlen) (fun j => hle (j + 1))
          (fun j => hlb (j + 1)) ⟨k, hj⟩
        omega

lemma sweepPass_measure (img gx gy : List ℚ) (w h : ℕ) (s : EdtState)
    (hlb : distLB s) (hch : (sweepPass img gx gy w h s).changed = true) :
    edtaaMeasure (sweepPass img gx gy w h s) < edtaaMeasure s := by
  obtain ⟨hlen, _, _, hle, hwit⟩ := sweepPass_spec img gx gy w h s
  have hlb' : distLB (sweepPass img gx gy w h s) :=
    sweepPass_distLB img gx gy w h s hlb
  exact mapsum_term_lt s.dist (sweepPass img gx gy w h s).dist hlen hle hlb'
    (hwit hch)

/-! ## C3: the sweep reaches a fixpoint in finitely many passes -/

lemma sweep_fixpoint_exists (img gx gy : List ℚ) (w h : ℕ) :
    ∀ (N : ℕ) (s : EdtState), distLB s → edtaaMeasure s ≤ N →
    ∃ n, n ≤ N ∧ ((sweepPass img gx gy w h)^[n + 1] s).changed = false := by
  intro N
  induction N with
  | zero =>
    intro s hlb hm
    by_cases hch : (sweepPass img gx gy w h s).changed = true
    · exact absurd (sweepPass_measure img gx gy w h s hlb hch) (by omega)
    · exact ⟨0, le_refl 0, by
        rw [Function.iterate_one]
        exact Bool.not_eq_true _ |>.mp hch⟩
  | succ N ih =>
    intro s hlb hm
    by_cases hch : (sweepPass img gx gy w h s).changed = true
    · have hm' : edtaaMeasure (sweepPass img gx gy w h s) ≤ N := by
        have := sweepPass_measure img gx gy w h s hlb hch
        omega
      obtain ⟨n, hn, hfix⟩ := ih (sweepPass img gx gy w h s)
        (sweepPass_distLB img gx gy w h s hlb) hm'
      exact ⟨n + 1, by omega, by rw [Function.iterate_succ_apply]; exact hfix⟩
    · exact ⟨0, by omega, by
        rw [Function.iterate_one]
        exact Bool.not_eq_true _ |>.mp hch⟩

lemma edtaaLoop_fixpoint (img gx gy : List ℚ) (w h : ℕ) :
    ∀ (fuel : ℕ) (s : EdtState), distLB s → edtaaMeasure s < fuel →
    (edtaaLoop img gx gy w h fuel s).changed = false := by
  intro fuel
  induction fuel with
  | zero => intro s _ hm; omega
  | succ f ih =>
    intro s hlb hm
    have heq : edtaaLoop img gx gy w h (f + 1) s =
        (if (sweepPass img gx gy w h s).changed then
          edtaaLoop img gx gy w h f (sweepPass img gx gy w h s)
        else sweepPass img gx gy w h s) := by
      simp only [edtaaLoop]
    rw [heq]
    by_cases hch : (sweepPass img gx gy w h s).changed = true
    · rw [if_pos hch]
      have := sweepPass_measure img gx gy w h s hlb hch
      exact ih (sweepPass img gx gy w h s)
        (sweepPass_distLB img gx gy w h s hlb) (by omega)
    · rw [if_neg (by simpa using hch)]
      exact Bool.not_eq_true _ |>.mp hch

/-- C3: for every `w, h ≥ 2` and buffers of length `w*h` (all values are
finite rationals in the model), the outer loop of `edtaa3` terminates:
some pass makes no change after at most `edtaaMeasure` iterations — the
measure sums, over all pixels, how many `epsilon`-improvements each
`dist` entry can still undergo before reaching the `-3` lower bound —
and the fuelled `edtaa3` reaches that fixpoint. -/
theorem C3_sweep_terminates (img gx gy : List ℚ) (w h : ℕ)
    (hw : 2 ≤ w) (hh : 2 ≤ h) (himg : img.length = w * h)
    (hgx : gx.length = w * h) (hgy : gy.length = w * h) :
    (∃ n, n ≤ edtaaMeasure (edtaaInit img gx gy (w * h)) ∧
      ((sweepPass img gx gy w h)^[n + 1]
        (edtaaInit img gx gy (w * h))).changed = false) ∧
    (edtaa3 img gx gy w h).changed = false := by
  have hlb := edtaaInit_distLB img gx gy (w * h)
  constructor
  · exact sweep_fixpoint_exists img gx gy w h _ _ hlb (le_refl _)
  · exact edtaaLoop_fixpoint img gx gy w h _ _ hlb (by omega)

/-- C3 (witness): termination instantiated on a concrete all-zero 2×2
input. -/
theorem C3_witness :
    (∃ n, n ≤ edtaaMeasure (edtaaInit (List.replicate 4 0) (List.replicate 4 0)
        (List.replicate 4 0) (2 * 2)) ∧
      ((sweepPass (List.replicate 4 0) (List.replicate 4 0) (List.replicate 4 0)
          2 2)^[n + 1]
        (edtaaInit (List.replicate 4 0) (List.replicate 4 0) (List.replicate 4 0)
          (2 * 2))).changed = false) ∧
    (edtaa3 (List.replicate 4 0) (List.replicate 4 0) (List.replicate 4 0)
      2 2).changed = false :=
  C3_sweep_terminates (List.replicate 4 0) (List.replicate 4 0)
    (List.replicate 4 0) 2 2 (by norm_num) (by norm_num) (by norm_num)
    (by norm_num) (by norm_num)
